import Mathlib

/-!
# MVCC layer of the posting package (`posting/mvcc.go`)

A shallow embedding of the transaction buffer (`Txn`), of the commit protocol
(`CommitToDisk`, `CommitToMemory`) and of the reconstruction of a posting list
from the versioned record store (`ReadPostingList`, `getNew`), followed by the
properties proved about them.

Conventions of the embedding:

* Go byte slices and Go strings are lists of naturals (`Bytes`); the
  conversion `[]byte(key)` is the identity.
* `uint64` timestamps and versions are naturals; the code never does
  arithmetic on them, it only stores and compares them.
* a Go `error` is `Option Error`, `none` being `nil`.
* the calls that leave the file (`tx.Get`, `GetMutation`, `CommitMutation`,
  `writer.SetAt`, `time.Sleep`, the transaction mutex) are recorded as events
  of a trace, and the answers of the environment are given by a `World`,
  which may depend on everything that happened before in the call.
-/

namespace Mvcc

/-- Byte slices (`[]byte`) and Go strings. -/
abbrev Bytes := List Nat

/-- The error values the file tells apart, and all the others (`other`). -/
inductive Error where
  | ErrRetry
  | ErrKeyNotFound
  | ErrTsTooOld
  | other (code : Nat)
  deriving DecidableEq, Repr

/-- Go type `pb.Posting`: the fields the file touches (`CommitTs`) and the
rest of the message. -/
structure Posting where
  Uid : Nat
  Value : Bytes
  StartTs : Nat
  CommitTs : Nat
  deriving DecidableEq, Repr

/-- Go type `pb.PostingList`: `Postings` and `CommitTs` are the fields the
file touches, `Pack` stands for the rest of the message. -/
structure PostingList where
  Pack : Bytes
  Postings : List Posting
  CommitTs : Nat
  deriving DecidableEq, Repr

/-- The zero value `new(pb.PostingList)`. -/
def PostingList.empty : PostingList := { Pack := [], Postings := [], CommitTs := 0 }

/-- Go type `map[uint64]*pb.PostingList`, as an association list with at most
one entry for a key. -/
abbrev MutationMap := List (Nat × PostingList)

/-- Map assignment `m[k] = v`. -/
def MutationMap.set (m : MutationMap) (k : Nat) (v : PostingList) : MutationMap :=
  (k, v) :: m.filter (fun e => e.1 != k)

/-- Map lookup `m[k]`. -/
def MutationMap.get (m : MutationMap) (k : Nat) : Option PostingList :=
  (m.find? (fun e => e.1 == k)).map Prod.snd

/-- The keys of the map. -/
def MutationMap.keys (m : MutationMap) : List Nat := m.map Prod.fst

/-- Go type `posting.List`, with the fields the file sets. -/
structure PList where
  key : Bytes
  plist : PostingList
  mutationMap : MutationMap
  minTs : Nat
  estimatedSize : Int
  deriving DecidableEq, Repr

/-- The list built by the first four lines of `ReadPostingList` and of
`getNew`: the key, an empty map, an empty snapshot, and zero elsewhere. -/
def PList.new (key : Bytes) : PList :=
  { key := key, plist := PostingList.empty, mutationMap := [], minTs := 0, estimatedSize := 0 }

/-- Go type `badger.Item`: one versioned record of the store. `value` is what
`item.Value` hands to its callback, or the error it returns instead. -/
structure Item where
  key : Bytes
  version : Nat
  userMeta : Nat
  isDeletedOrExpired : Bool
  discardEarlierVersions : Bool
  value : Except Error Bytes

/-- Go type `badger.Iterator`: the records it runs over and its position. -/
structure Iterator where
  items : List Item
  pos : Nat

/-- The declarations of the repository the file uses and that live in other
files: the two metadata bits, `pb.PostingList.Unmarshal` on a fresh message
(the message after the call and the error returned), `List.calculateSize`,
the hash `farm.Fingerprint64` and the predicate name `x.Parse(key).Attr`. -/
structure Ext where
  BitCompletePosting : Nat
  BitDeltaPosting : Nat
  Unmarshal : Bytes → PostingList × Option Error
  calculateSize : PList → Int
  Fingerprint64 : Bytes → Nat
  ParseAttr : Bytes → Bytes

/-- How a call of `ReadPostingList` ends: it returns a list, it returns an
error, or the process is stopped by `x.Check` or by `x.Fatalf`. -/
inductive ReadResult where
  | ok (l : PList)
  | err (e : Error)
  | fatalCheck (e : Error)
  | fatalMeta (userMeta : Nat)
  deriving DecidableEq, Repr

/-- The record has the Complete bit: `item.UserMeta()&BitCompletePosting > 0`. -/
def Item.isComplete (x : Ext) (item : Item) : Bool :=
  decide (item.userMeta &&& x.BitCompletePosting > 0)

/-- The record has the Delta bit: `item.UserMeta()&BitDeltaPosting > 0`. -/
def Item.isDelta (x : Ext) (item : Item) : Bool :=
  decide (item.userMeta &&& x.BitDeltaPosting > 0)

/-- Go `unmarshalOrCopy`: the message after the call and the error. An empty
value leaves the message as it is. Both callers call it on a record with the
Complete bit only, to fill the snapshot of the list; the comment `It's delta`
at its top does not describe a caller. -/
def unmarshalOrCopy (x : Ext) (plist : PostingList) (item : Item) : PostingList × Option Error :=
  match item.value with
  | .error e => (plist, some e)
  | .ok val => if val.length = 0 then (plist, none) else x.Unmarshal val

/-- The body of the callback of the Delta branch after a successful
`Unmarshal`: the commit timestamp of the message and of each of its postings
is set to the version of the record. -/
def stampCommitTs (pl : PostingList) (version : Nat) : PostingList :=
  { pl with CommitTs := version,
            Postings := pl.Postings.map (fun mpost => { mpost with CommitTs := version }) }

/-- The loop of `ReadPostingList` on the records from the position of the
iterator on: the result and the position the iterator is left at. -/
def readLoop (x : Ext) : List Item → Nat → PList → ReadResult × Nat
  | [], pos, l => (.ok l, pos)
  | item :: rest, pos, l =>
    if item.isDeletedOrExpired then (.ok l, pos)
    else if item.key ≠ l.key then (.ok l, pos)
    else if item.isComplete x then
      match unmarshalOrCopy x l.plist item with
      | (_, some e) => (.err e, pos)
      | (pl, none) => (.ok { l with plist := pl, minTs := item.version }, pos)
    else if item.isDelta x then
      match item.value with
      | .error e => (.err e, pos)
      | .ok val =>
        match x.Unmarshal val with
        | (_, some e) => (.fatalCheck e, pos)
        | (pl, none) =>
          let pl1 := stampCommitTs pl item.version
          let l1 := { l with mutationMap := l.mutationMap.set pl1.CommitTs pl1 }
          if item.discardEarlierVersions then (.ok l1, pos)
          else readLoop x rest (pos + 1) l1
    else (.fatalMeta item.userMeta, pos)

/-- Go `ReadPostingList`: the result and the iterator after the call. -/
def ReadPostingList (x : Ext) (key : Bytes) (it : Iterator) : ReadResult × Iterator :=
  let r := readLoop x (it.items.drop it.pos) it.pos (PList.new key)
  (r.1, { it with pos := r.2 })

/-! ## The record store seen by `getNew` -/

/-- The versioned record store (`badger.DB`) as `getNew` uses it, read at
timestamp `math.MaxUint64` so that every version is visible: its records,
ordered by key and, for one key, from the newest version to the oldest, and
the failure of the point lookup of a key, if it has one. -/
structure DB where
  records : List Item
  getError : Bytes → Option Error

/-- The point lookup `txn.Get(key)`: the newest record of the key, and
`ErrKeyNotFound` when the key has no record or when its newest record is
deleted or expired. -/
def txnGet (pstore : DB) (key : Bytes) : Except Error Item :=
  match pstore.getError key with
  | some e => .error e
  | none =>
    match pstore.records.find? (fun r => r.key == key) with
    | none => .error Error.ErrKeyNotFound
    | some item =>
      if item.isDeletedOrExpired then .error Error.ErrKeyNotFound else .ok item

/-- The iterator `txn.NewKeyIterator(key, iterOpts)` with all versions
enabled, after `it.Seek(key)`: it stands on the newest record of the key. -/
def seekKeyIterator (pstore : DB) (key : Bytes) : Iterator :=
  { items := pstore.records.dropWhile (fun r => r.key != key), pos := 0 }

/-- How a call of `getNew` ends: it returns a list pointer (`none` is `nil`)
and an error, or the process is stopped inside `ReadPostingList`. -/
inductive GetNewResult where
  | ret (l : Option PList) (err : Option Error)
  | fatalCheck (e : Error)
  | fatalMeta (userMeta : Nat)
  deriving DecidableEq, Repr

/-- The end of `getNew`, from `if err != nil` on: the size is computed and
stored in the list. -/
def finishGetNew (x : Ext) (l : PList) (err : Option Error) : GetNewResult :=
  match err with
  | some e => .ret (some l) (some e)
  | none => .ret (some { l with estimatedSize := x.calculateSize l }) none

/-- Go `getNew`. -/
def getNew (x : Ext) (key : Bytes) (pstore : DB) : GetNewResult :=
  let l := PList.new key
  match txnGet pstore key with
  | .error e =>
    if e = Error.ErrKeyNotFound then .ret (some l) none else .ret (some l) (some e)
  | .ok item =>
    if item.isComplete x then
      let r := unmarshalOrCopy x l.plist item
      finishGetNew x { l with plist := r.1, minTs := item.version } r.2
    else
      match (ReadPostingList x key (seekKeyIterator pstore key)).1 with
      | .ok l1 => finishGetNew x l1 none
      | .err e => .ret none (some e)
      | .fatalCheck e => .fatalCheck e
      | .fatalMeta m => .fatalMeta m

/-! ## Transactions -/

/-- Go type `map[string]struct{}`: `none` is the nil map, `some ks` a map
whose keys are `ks`, each once. -/
abbrev KeySet := Option (List Bytes)

/-- The keys of a set; a nil map has none. -/
def KeySet.elems (s : KeySet) : List Bytes := s.getD []

/-- Assignment `s[k] = struct{}{}` on a map that is not nil. -/
def insertKey (ks : List Bytes) (k : Bytes) : List Bytes :=
  if k ∈ ks then ks else ks ++ [k]

/-- Go type `posting.Txn`, with the fields the file uses. -/
structure Txn where
  StartTs : Nat
  shouldAbort : Nat
  deltas : KeySet
  conflicts : KeySet
  deriving DecidableEq, Repr

/-- Go `(*Txn).SetAbort`. -/
def SetAbort (t : Txn) : Txn := { t with shouldAbort := 1 }

/-- Go `(*Txn).ShouldAbort`; `none` is the nil pointer. -/
def ShouldAbort (t : Option Txn) : Bool :=
  match t with
  | none => false
  | some t => decide (t.shouldAbort > 0)

/-- Go `(*Txn).AddKeys`. -/
def AddKeys (t : Txn) (key conflictKey : Bytes) : Txn :=
  let t1 : Txn :=
    if t.deltas = none ∨ t.conflicts = none then
      { t with deltas := some [], conflicts := some [] }
    else t
  let t2 : Txn := { t1 with deltas := some (insertKey t1.deltas.elems key) }
  if conflictKey.length > 0 then
    { t2 with conflicts := some (insertKey t2.conflicts.elems conflictKey) }
  else t2

/-- Go type `api.TxnContext`, with the fields `Fill` sets. -/
structure TxnContext where
  StartTs : Nat
  Keys : List Bytes
  Preds : List Bytes
  deriving DecidableEq, Repr

/-- Go `x.HasString`. -/
def HasString (a : List Bytes) (b : Bytes) : Bool := a.contains b

/-- One digit of `strconv.FormatUint` in base 36: `0`..`9`, `a`..`z`. -/
def digit36 (d : Nat) : Nat := if d < 10 then 48 + d else 87 + d

/-- The digits of `n` in base 36, the most significant first, with at most
`fuel + 1` digits. -/
def formatUint36Aux : Nat → Nat → Bytes → Bytes
  | 0, n, acc => digit36 (n % 36) :: acc
  | fuel + 1, n, acc =>
    if n < 36 then digit36 n :: acc
    else formatUint36Aux fuel (n / 36) (digit36 (n % 36) :: acc)

/-- Go `strconv.FormatUint(n, 36)` for a `uint64`, which has at most 13
digits in base 36. -/
def formatUint36 (n : Nat) : Bytes := formatUint36Aux 12 (n % 2 ^ 64) []

/-- The loop `for key := range t.conflicts` of `Fill`, on the keys in the
order the range yields them. -/
def fillKeys (x : Ext) : List Bytes → List Bytes → List Bytes
  | [], keys => keys
  | key :: rest, keys =>
    let fps := formatUint36 (x.Fingerprint64 key)
    if !HasString keys fps then fillKeys x rest (keys ++ [fps]) else fillKeys x rest keys

/-- The loop `for key := range t.deltas` of `Fill`. -/
def fillPreds (x : Ext) : List Bytes → List Bytes → List Bytes
  | [], preds => preds
  | key :: rest, preds =>
    let attr := x.ParseAttr key
    if !HasString preds attr then fillPreds x rest (preds ++ [attr])
    else fillPreds x rest preds

/-- Go `(*Txn).Fill`: the transaction and the context after the call. The two
arguments `ordC` and `ordD` give the order in which `range` yields the keys of
the two maps. -/
def Fill (x : Ext) (ordC ordD : List Bytes → List Bytes) (t : Txn) (ctx : TxnContext) :
    Txn × TxnContext :=
  (t, { ctx with StartTs := t.StartTs,
                 Keys := fillKeys x (ordC t.conflicts.elems) ctx.Keys,
                 Preds := fillPreds x (ordD t.deltas.elems) ctx.Preds })

/-- The transaction `&Txn{StartTs: startTs}` as it is created: no abort flag
and both maps nil. -/
def Txn.fresh (startTs : Nat) : Txn :=
  { StartTs := startTs, shouldAbort := 0, deltas := none, conflicts := none }

/-- The transaction after the calls `AddKeys(key, conflictKey)` for the pairs
of `calls`, in this order. -/
def addAll (t : Txn) (calls : List (Bytes × Bytes)) : Txn :=
  calls.foldl (fun acc p => AddKeys acc p.1 p.2) t

/-! ## The commit protocol -/

/-- What a list fetch `tx.Get(key)` answers: a posting list, named by a
number, or an error. -/
inductive Fetch where
  | ok (plist : Nat)
  | err (e : Error)
  deriving DecidableEq, Repr

/-- The calls a transaction operation makes outside of the file, each with
the answer it got, in the order they happen. -/
inductive Event where
  | lock
  | unlock
  | get (key : Bytes) (res : Fetch)
  | getMutation (plist : Nat) (startTs : Nat) (res : Option Bytes)
  | setAt (key : Bytes) (data : Bytes) (userMeta : Nat) (ts : Nat) (res : Option Error)
  | commitMutation (plist : Nat) (startTs : Nat) (commitTs : Nat) (res : Option Error)
  | sleep (nanoseconds : Nat)
  | warning (e : Error)
  deriving DecidableEq, Repr

/-- The environment of a call: the answer of each outside call, given the
events of the call so far. -/
structure World where
  Get : List Event → Bytes → Fetch
  GetMutation : List Event → Nat → Nat → Option Bytes
  SetAt : List Event → Bytes → Bytes → Nat → Nat → Option Error
  CommitMutation : List Event → Nat → Nat → Nat → Option Error

/-- The events of a call of `AddKeys`: `t.Lock()`, and the deferred
`t.Unlock()`; the call makes no other call outside of the file. -/
def AddKeysEvents : List Event := [Event.lock, Event.unlock]

/-- The events of a call of `Fill`: `t.Lock()`, and the deferred `t.Unlock()`;
the fingerprint, the formatting and the parsing of keys touch no list and no
store. -/
def FillEvents : List Event := [Event.lock, Event.unlock]

/-- Go `time.Millisecond`, in nanoseconds. -/
def Millisecond : Nat := 1000000

/-- The loop `for _, key := range keys` of `CommitToDisk`, after the events
`tr`: the error returned and the events after the loop. -/
def diskLoop (x : Ext) (w : World) (tx : Txn) (commitTs : Nat) :
    List Bytes → List Event → Option Error × List Event
  | [], tr => (none, tr)
  | key :: rest, tr =>
    match w.Get tr key with
    | .err e => (some e, tr ++ [Event.get key (.err e)])
    | .ok plist =>
      let tr1 := tr ++ [Event.get key (.ok plist)]
      match w.GetMutation tr1 plist tx.StartTs with
      | none => diskLoop x w tx commitTs rest (tr1 ++ [Event.getMutation plist tx.StartTs none])
      | some data =>
        let tr2 := tr1 ++ [Event.getMutation plist tx.StartTs (some data)]
        match w.SetAt tr2 key data x.BitDeltaPosting commitTs with
        | some e => (some e, tr2 ++ [Event.setAt key data x.BitDeltaPosting commitTs (some e)])
        | none =>
          diskLoop x w tx commitTs rest
            (tr2 ++ [Event.setAt key data x.BitDeltaPosting commitTs none])

/-- Go `(*Txn).CommitToDisk`: the error returned, the transaction after the
call and the events of the call. `ord` is the order in which `range` yields
the keys of `tx.deltas`; the writer is the `SetAt` of the world. -/
def CommitToDisk (x : Ext) (w : World) (ord : List Bytes → List Bytes) (tx : Txn)
    (commitTs : Nat) : Option Error × Txn × List Event :=
  if commitTs = 0 then (none, tx, [])
  else
    let keys := ord tx.deltas.elems
    let r := diskLoop x w tx commitTs keys [Event.lock, Event.unlock]
    (r.1, tx, r.2)

/-- How far a call of `CommitToMemory` got: it returned, or it is still in
its retry loop when the attempts allowed to it are used up. -/
inductive Outcome where
  | returned (err : Option Error)
  | running
  deriving DecidableEq, Repr

/-- The loops of `CommitToMemory`: the outer `for key := range tx.deltas` on
the keys left, the first of them being the key of the inner `for`. The first
argument bounds the number of iterations of the inner loop. -/
def memLoop (w : World) (tx : Txn) (commitTs : Nat) :
    Nat → List Bytes → List Event → Outcome × List Event
  | _, [], tr => (.returned none, tr)
  | 0, _ :: _, tr => (.running, tr)
  | fuel + 1, key :: rest, tr =>
    match w.Get tr key with
    | .err e => (.returned (some e), tr ++ [Event.get key (.err e)])
    | .ok plist =>
      let tr1 := tr ++ [Event.get key (.ok plist)]
      match w.CommitMutation tr1 plist tx.StartTs commitTs with
      | none =>
        memLoop w tx commitTs fuel rest
          (tr1 ++ [Event.commitMutation plist tx.StartTs commitTs none])
      | some e =>
        if e = Error.ErrRetry then
          memLoop w tx commitTs fuel (key :: rest)
            (tr1 ++ [Event.commitMutation plist tx.StartTs commitTs (some e),
                     Event.sleep (5 * Millisecond)])
        else
          (.returned (some e),
            tr1 ++ [Event.commitMutation plist tx.StartTs commitTs (some e), Event.warning e])

/-- Go `(*Txn).CommitToMemory`, allowed `fuel` iterations of its inner loop:
how far it got, the transaction after the call and the events of the call.
The deferred `Unlock` runs when the call returns. -/
def CommitToMemory (w : World) (ord : List Bytes → List Bytes) (fuel : Nat) (tx : Txn)
    (commitTs : Nat) : Outcome × Txn × List Event :=
  let r := memLoop w tx commitTs fuel (ord tx.deltas.elems) [Event.lock]
  match r.1 with
  | .returned e => (.returned e, tx, r.2 ++ [Event.unlock])
  | .running => (.running, tx, r.2)

/-! ## Words used in the statements -/

/-- The walk of `ReadPostingList` for `key` folds the record and moves on to
the next one: the record is live, has the key, is a Delta record and not a
Complete one, is not marked `DiscardEarlierVersions`, and its payload is
read and unmarshalled without error. -/
def passes (x : Ext) (key : Bytes) (item : Item) : Bool :=
  match item.value with
  | .error _ => false
  | .ok val =>
    !item.isDeletedOrExpired && decide (item.key = key) && !item.isComplete x
      && item.isDelta x && !item.discardEarlierVersions && (x.Unmarshal val).2.isNone

/-- The content of a Delta record as the walk stores it: its payload
unmarshalled and stamped with the version of the record. -/
def deltaContent (x : Ext) (item : Item) : PostingList :=
  match item.value with
  | .error _ => stampCommitTs PostingList.empty item.version
  | .ok val => stampCommitTs (x.Unmarshal val).1 item.version

/-- The map after the Delta records `items` are folded into `m`, the first
of them first. -/
def foldDeltas (x : Ext) (m : MutationMap) (items : List Item) : MutationMap :=
  items.foldl (fun acc item => acc.set item.version (deltaContent x item)) m

/-- The record an event writes: a successful call of `SetAt` writes its key,
payload, metadata and version. -/
def recordOf : Event → Option (Bytes × Bytes × Nat × Nat)
  | Event.setAt key data userMeta ts none => some (key, data, userMeta, ts)
  | _ => none

/-- The records the events of a call show as written, in the order they are
written. -/
def written (tr : List Event) : List (Bytes × Bytes × Nat × Nat) := tr.filterMap recordOf

/-- The error with which an event of `CommitToDisk` fails: a list fetch or a
write that answers an error. -/
def diskFailure : Event → Option Error
  | Event.get _ (.err e) => some e
  | Event.setAt _ _ _ _ (some e) => some e
  | _ => none

/-- The error with which an event of `CommitToMemory` fails: a list fetch
that answers an error, or `CommitMutation` answering an error other than
`ErrRetry`. -/
def memFailure : Event → Option Error
  | Event.get _ (.err e) => some e
  | Event.commitMutation _ _ _ (some e) => if e = Error.ErrRetry then none else some e
  | _ => none

/-- The event is a list fetch, a call of a list, a write or a delay. -/
def isWork : Event → Bool
  | Event.lock => false
  | Event.unlock => false
  | Event.warning _ => false
  | _ => true

/-- The events of the attempts of `CommitToMemory` on one key whose list is
`plist`, when `CommitMutation` answers `ErrRetry` `n` times and then succeeds:
each failed attempt is followed by a delay of 5 ms. -/
def retryEvents (key : Bytes) (plist startTs commitTs : Nat) : Nat → List Event
  | 0 => [Event.get key (.ok plist), Event.commitMutation plist startTs commitTs none]
  | n + 1 =>
    [Event.get key (.ok plist),
      Event.commitMutation plist startTs commitTs (some Error.ErrRetry),
      Event.sleep (5 * Millisecond)] ++ retryEvents key plist startTs commitTs n

/-- The event is a call of `CommitMutation` on the list `plist`. -/
def isAttemptOn (plist : Nat) : Event → Bool
  | Event.commitMutation p _ _ _ => p == plist
  | _ => false

/-- The number of calls of `CommitMutation` on the list `plist` among the
events. -/
def attemptsOn (plist : Nat) (tr : List Event) : Nat := tr.countP (isAttemptOn plist)

/-- The events of `CommitToMemory` between `Lock` and `Unlock` on the keys
`keys`, when the list of `k` is `L k` and `CommitMutation` answers `ErrRetry`
`n k` times for it and then succeeds. -/
def memEvents (L : Bytes → Nat) (n : Bytes → Nat) (startTs commitTs : Nat) :
    List Bytes → List Event
  | [] => []
  | k :: ks => retryEvents k (L k) startTs commitTs (n k) ++ memEvents L n startTs commitTs ks

/-- The number of iterations of the inner loop these events take. -/
def attemptsNeeded (n : Bytes → Nat) : List Bytes → Nat
  | [] => 0
  | k :: ks => n k + 1 + attemptsNeeded n ks

/-- The delay of an event, in nanoseconds, when the event is a delay. -/
def delayOf : Event → Option Nat
  | Event.sleep d => some d
  | _ => none

/-- The delays among the events, in the order they happen. -/
def delays (tr : List Event) : List Nat := tr.filterMap delayOf

/-- The number of answers `ErrRetry` over all the keys. -/
def retriesTotal (n : Bytes → Nat) : List Bytes → Nat
  | [] => 0
  | k :: ks => n k + retriesTotal n ks

/-- The event is a list fetch, a call of `GetMutation` or of
`CommitMutation`, or a write. -/
def isStorageCall : Event → Bool
  | Event.get _ _ => true
  | Event.getMutation _ _ _ => true
  | Event.setAt _ _ _ _ _ => true
  | Event.commitMutation _ _ _ _ => true
  | _ => false

/-- Some list fetch, list call or write of the events happens while the lock
of the transaction is held; `held` tells whether it is held before the first
event. -/
def lockedCall : Bool → List Event → Bool
  | _, [] => false
  | _, Event.lock :: tr => lockedCall true tr
  | _, Event.unlock :: tr => lockedCall false tr
  | held, ev :: tr => (held && isStorageCall ev) || lockedCall held tr

/-- The record of the store that a write of `CommitToDisk` leaves for its key:
live, with the key, payload, metadata and version of the write. `discard` is
its `DiscardEarlierVersions` marker. -/
def writtenItem (rec : Bytes × Bytes × Nat × Nat) (discard : Bool) : Item :=
  { key := rec.1, version := rec.2.2.2, userMeta := rec.2.2.1, isDeletedOrExpired := false,
    discardEarlierVersions := discard, value := .ok rec.2.1 }

/-- The strings `news` appended to `acc` one after the other, each only when
it is not there yet. -/
def appendNew : List Bytes → List Bytes → List Bytes
  | [], acc => acc
  | a :: news, acc => if acc.contains a then appendNew news acc else appendNew news (acc ++ [a])

/-- The value of a digit of base 36 written `0`..`9`, `a`..`z`. -/
def undigit36 (c : Nat) : Nat := if c < 58 then c - 48 else c - 87

/-- The number a string of digits of base 36 stands for, the most significant
digit first, after the digits already read as `acc`. -/
def value36From (acc : Nat) (digits : Bytes) : Nat :=
  digits.foldl (fun v c => v * 36 + undigit36 c) acc

/-- The number a string of digits of base 36 stands for. -/
def value36 (digits : Bytes) : Nat := value36From 0 digits

/-- The events `evs` and the error `res` of a call fit together, for the
notion of failure `fail`: with no error no event fails; with the error `e`
exactly one event fails, it fails with `e`, and the events after it satisfy
`T`. -/
def FailShape (fail : Event → Option Error) (T : List Event → Prop) (res : Option Error)
    (evs : List Event) : Prop :=
  match res with
  | none => ∀ a ∈ evs, fail a = none
  | some e =>
    ∃ mid ev tail, evs = mid ++ ev :: tail ∧ (∀ a ∈ mid, fail a = none) ∧ fail ev = some e ∧
      (∀ a ∈ tail, fail a = none) ∧ T tail

/-- The error a call of `CommitToMemory` has returned so far, if any. -/
def Outcome.error : Outcome → Option Error
  | .returned e => e
  | .running => none

/-! ## Sample values -/

/-- A decoder for the examples: a payload starting with 255 is malformed,
any other payload has one posting for each of its bytes. -/
def sampleUnmarshal (val : Bytes) : PostingList × Option Error :=
  match val with
  | 255 :: _ => (PostingList.empty, some (Error.other 1))
  | _ => ({ Pack := val,
            Postings := val.map (fun b => { Uid := b, Value := [], StartTs := 0, CommitTs := 0 }),
            CommitTs := 0 }, none)

/-- The declarations of the other files, for the examples: the bits are those
of `posting/list.go`. -/
def sampleExt : Ext :=
  { BitCompletePosting := 8, BitDeltaPosting := 4, Unmarshal := sampleUnmarshal,
    calculateSize := fun l => l.mutationMap.length,
    Fingerprint64 := fun key => key.sum, ParseAttr := fun key => key.take 1 }

/-- The key `"k1"`. -/
def k1 : Bytes := [107, 49]

/-- A live Delta record of `k1` with payload `[version]`. -/
def deltaAt (version : Nat) : Item :=
  { key := k1, version := version, userMeta := 4, isDeletedOrExpired := false,
    discardEarlierVersions := false, value := .ok [version] }

/-- A live Complete record of `k1` with payload `[version]`. -/
def completeAt (version : Nat) : Item :=
  { key := k1, version := version, userMeta := 8, isDeletedOrExpired := false,
    discardEarlierVersions := false, value := .ok [version] }

/-- A deleted record of `k1`. -/
def deletedAt (version : Nat) : Item :=
  { key := k1, version := version, userMeta := 4, isDeletedOrExpired := true,
    discardEarlierVersions := false, value := .ok [version] }

/-- A live Delta record of `k1` marked `DiscardEarlierVersions`. -/
def discardAt (version : Nat) : Item :=
  { key := k1, version := version, userMeta := 4, isDeletedOrExpired := false,
    discardEarlierVersions := true, value := .ok [version] }

/-- A live record of `k1` with neither the Complete nor the Delta bit. -/
def schemaAt (version : Nat) : Item :=
  { key := k1, version := version, userMeta := 1, isDeletedOrExpired := false,
    discardEarlierVersions := false, value := .ok [version] }

/-- A store whose records of `k1` are, from the newest, a deleted record at
110 and a Complete record at 100. -/
def deletedStore : DB :=
  { records := [deletedAt 110, completeAt 100], getError := fun _ => none }

/-- A transaction started at 5 that wrote `k1`. -/
def sampleTxn : Txn :=
  { StartTs := 5, shouldAbort := 0, deltas := some [k1], conflicts := some [] }

/-- A world where every call succeeds: the list of every key is list 7, and
it has the buffered mutation `[1, 2, 3]` at start timestamp 5 only. -/
def sampleWorld : World :=
  { Get := fun _ _ => Fetch.ok 7,
    GetMutation := fun _ _ startTs => if startTs = 5 then some [1, 2, 3] else none,
    SetAt := fun _ _ _ _ _ => none,
    CommitMutation := fun _ _ _ _ => none }

/-- The key `"k2"`. -/
def k2 : Bytes := [107, 50]

/-- A transaction started at 5 that wrote `k1` and `k2`. -/
def twoKeyTxn : Txn :=
  { StartTs := 5, shouldAbort := 0, deltas := some [k1, k2], conflicts := some [] }

/-- A world where the list fetch of `k2` fails with error 9 and every other
call succeeds. -/
def failingWorld : World :=
  { Get := fun _ key => if key = k2 then Fetch.err (Error.other 9) else Fetch.ok 7,
    GetMutation := fun _ _ _ => some [1, 2, 3],
    SetAt := fun _ _ _ _ _ => none,
    CommitMutation := fun _ _ _ _ => none }

/-- A world where every list fetch fails with `ErrRetry`. -/
def retryFetchWorld : World :=
  { Get := fun _ _ => Fetch.err Error.ErrRetry,
    GetMutation := fun _ _ _ => none,
    SetAt := fun _ _ _ _ _ => none,
    CommitMutation := fun _ _ _ _ => none }

/-- A world where `CommitMutation` answers `ErrRetry` twice on list 7 and
then succeeds, and every other call succeeds. -/
def retryTwiceWorld : World :=
  { Get := fun _ _ => Fetch.ok 7,
    GetMutation := fun _ _ _ => some [1, 2, 3],
    SetAt := fun _ _ _ _ _ => none,
    CommitMutation := fun t plist _ _ =>
      if attemptsOn plist t < 2 then some Error.ErrRetry else none }

/-- A transaction whose written keys hold `k1` and whose conflict map is
nil. -/
def halfTxn : Txn :=
  { StartTs := 5, shouldAbort := 0, deltas := some [k1], conflicts := none }

/-- A transaction with two written keys of the same predicate and two
conflict keys of the same fingerprint. -/
def dupTxn : Txn :=
  { StartTs := 5, shouldAbort := 0, deltas := some [[107, 49], [107, 50]],
    conflicts := some [[1, 2], [2, 1]] }

/-- The empty context record. -/
def emptyCtx : TxnContext := { StartTs := 0, Keys := [], Preds := [] }

/-- A store whose records of `k1` are, from the newest, a Complete record at
100 and a Delta record at 90, after a record of another key. -/
def completeStore : DB :=
  { records := [{ deltaAt 120 with key := [106] }, completeAt 100, deltaAt 90],
    getError := fun _ => none }

/-- An encoder for the examples: the field `Pack` of the message. -/
def sampleMarshal (pl : PostingList) : Bytes := pl.Pack

/-- The list a result of `ReadPostingList` holds, and an empty list when it
holds none. -/
def ReadResult.list : ReadResult → PList
  | .ok l => l
  | _ => PList.new []

/-- The list `ReadPostingList` returns for `k1` on an iterator placed at the
first of the records. -/
def sampleRead (recs : List Item) : PList :=
  (ReadPostingList sampleExt k1 ⟨recs, 0⟩).1.list

/-! ## The walk of `ReadPostingList` -/

theorem passes_iff (x : Ext) (key : Bytes) (item : Item) :
    passes x key item = true ↔
      ∃ val, item.value = .ok val ∧ item.isDeletedOrExpired = false ∧ item.key = key ∧
        item.isComplete x = false ∧ item.isDelta x = true ∧
        item.discardEarlierVersions = false ∧ (x.Unmarshal val).2 = none := by
  unfold passes
  cases hv : item.value with
  | error e => simp
  | ok val =>
    simp only [Bool.and_eq_true, Bool.not_eq_true', decide_eq_true_eq, Option.isNone_iff_eq_none,
      Except.ok.injEq, exists_eq_left']
    tauto

/-- One turn of the loop on a record the walk folds and moves past. -/
theorem readLoop_cons_passes (x : Ext) (item : Item) (rest : List Item) (pos : Nat) (l : PList)
    (h : passes x l.key item = true) :
    readLoop x (item :: rest) pos l =
      readLoop x rest (pos + 1)
        { l with mutationMap := l.mutationMap.set item.version (deltaContent x item) } := by
  obtain ⟨val, hv, hd, hk, hc, hdl, hdi, hu⟩ := (passes_iff x l.key item).1 h
  have hu1 : x.Unmarshal val = ((x.Unmarshal val).1, none) := by
    rw [← hu]
  rw [readLoop]
  simp only [hd, hk, hc, hdl, hdi, hv, deltaContent, stampCommitTs]
  rw [hu1]
  simp

/-- The walk folds a run of such records and goes on with what follows. -/
theorem readLoop_append_passes (x : Ext) (pre rest : List Item) (pos : Nat) (l : PList)
    (h : ∀ r ∈ pre, passes x l.key r = true) :
    readLoop x (pre ++ rest) pos l =
      readLoop x rest (pos + pre.length)
        { l with mutationMap := foldDeltas x l.mutationMap pre } := by
  induction pre generalizing pos l with
  | nil => simp [foldDeltas]
  | cons a pre ih =>
    have ha : passes x l.key a = true := h a (List.mem_cons_self _ _)
    rw [List.cons_append, readLoop_cons_passes x a (pre ++ rest) pos l ha]
    rw [ih (pos + 1)
      { l with mutationMap := l.mutationMap.set a.version (deltaContent x a) }
      (fun r hr => h r (List.mem_cons_of_mem _ hr))]
    simp only [foldDeltas, List.foldl_cons, List.length_cons]
    congr 1
    omega

/-- On a record the walk does not move past, the loop ends at this record:
what follows the record has no part in the result, and the iterator stays. -/
theorem readLoop_cons_stop (x : Ext) (item : Item) (rest : List Item) (pos : Nat) (l : PList)
    (h : passes x l.key item = false) :
    readLoop x (item :: rest) pos l = readLoop x [item] pos l ∧
      (readLoop x [item] pos l).2 = pos := by
  have hp := passes_iff x l.key item
  rw [h] at hp
  simp only [readLoop]
  by_cases hd : item.isDeletedOrExpired = true
  · simp [hd]
  · by_cases hk : item.key = l.key
    · by_cases hc : item.isComplete x = true
      · simp only [hd, hk, hc]
        rcases hu : unmarshalOrCopy x l.plist item with ⟨pl, _ | e⟩ <;> simp
      · by_cases hdl : item.isDelta x = true
        · simp only [hd, hk, hc, hdl]
          cases hv : item.value with
          | error e => simp
          | ok val =>
            rcases hu : x.Unmarshal val with ⟨pl, _ | e⟩
            · by_cases hdi : item.discardEarlierVersions = true
              · simp [hdi, hu]
              · exfalso
                have : (false = true) := hp.2 ⟨val, hv, by simpa using hd, hk, by simpa using hc,
                  hdl, by simpa using hdi, by rw [hu]⟩
                exact Bool.false_ne_true this
            · simp [hu]
        · simp [hd, hk, hc, hdl]
    · simp [hd, hk]

/-- The walk in one step: it folds the longest run of records it moves past
and ends on the record after them, if there is one. -/
theorem readLoop_eq_stop (x : Ext) (items : List Item) (pos : Nat) (l : PList) :
    readLoop x items pos l =
      match items.dropWhile (passes x l.key) with
      | [] =>
        (.ok { l with mutationMap := foldDeltas x l.mutationMap (items.takeWhile (passes x l.key)) },
          pos + (items.takeWhile (passes x l.key)).length)
      | s :: _ =>
        readLoop x [s] (pos + (items.takeWhile (passes x l.key)).length)
          { l with mutationMap := foldDeltas x l.mutationMap (items.takeWhile (passes x l.key)) } := by
  have hsplit := List.takeWhile_append_dropWhile (passes x l.key) items
  have hpre : ∀ r ∈ items.takeWhile (passes x l.key), passes x l.key r = true :=
    fun r hr => List.mem_takeWhile_imp hr
  have h1 := readLoop_append_passes x (items.takeWhile (passes x l.key))
    (items.dropWhile (passes x l.key)) pos l hpre
  rw [hsplit] at h1
  rw [h1]
  cases hd : items.dropWhile (passes x l.key) with
  | nil => simp [readLoop]
  | cons s post =>
    have hs : passes x l.key s = false := by
      have := List.head_dropWhile_not (passes x l.key) items (by rw [hd]; simp)
      simpa [hd] using this
    exact (readLoop_cons_stop x s post _
      { l with mutationMap := foldDeltas x l.mutationMap (items.takeWhile (passes x l.key)) }
      hs).1

/-! ## The mutation map -/

theorem mem_keys_set (m : MutationMap) (a : Nat) (v : PostingList) (k : Nat) :
    k ∈ (m.set a v).keys ↔ k = a ∨ k ∈ m.keys := by
  unfold MutationMap.set MutationMap.keys
  rw [List.map_cons, List.mem_cons]
  constructor
  · rintro (h | h)
    · exact Or.inl h
    · obtain ⟨e, he, hk⟩ := List.mem_map.1 h
      exact Or.inr (List.mem_map.2 ⟨e, (List.mem_filter.1 he).1, hk⟩)
  · rintro (h | h)
    · exact Or.inl h
    · by_cases hk : k = a
      · exact Or.inl hk
      · obtain ⟨e, he, hek⟩ := List.mem_map.1 h
        refine Or.inr (List.mem_map.2 ⟨e, List.mem_filter.2 ⟨he, ?_⟩, hek⟩)
        simpa [hek] using hk

theorem get_set_self (m : MutationMap) (a : Nat) (v : PostingList) :
    (m.set a v).get a = some v := by
  simp [MutationMap.set, MutationMap.get]

theorem get_set_of_ne (m : MutationMap) (a : Nat) (v : PostingList) (k : Nat) (h : k ≠ a) :
    (m.set a v).get k = m.get k := by
  have ha : (a == k) = false := by simpa using fun e => h e.symm
  simp only [MutationMap.set, MutationMap.get, List.find?_cons, ha]
  congr 1
  induction m with
  | nil => rfl
  | cons e m ih =>
    by_cases hea : e.1 = a
    · have hek : (e.1 == k) = false := by simpa [hea] using fun e1 => h e1.symm
      have hf : (e.1 != a) = false := by simp [hea]
      rw [List.filter_cons, hf, List.find?_cons, hek]
      simpa using ih
    · have hf : (e.1 != a) = true := by simpa using hea
      rw [List.filter_cons, hf]
      simp only [if_true, List.find?_cons]
      rw [ih]

theorem mem_keys_foldDeltas (x : Ext) (items : List Item) (m : MutationMap) (k : Nat) :
    k ∈ (foldDeltas x m items).keys ↔ k ∈ m.keys ∨ ∃ r ∈ items, r.version = k := by
  induction items generalizing m with
  | nil => simp [foldDeltas]
  | cons a items ih =>
    have h := ih (m.set a.version (deltaContent x a))
    simp only [foldDeltas, List.foldl_cons] at h ⊢
    rw [h, mem_keys_set]
    simp only [List.mem_cons, exists_eq_or_imp]
    constructor
    · rintro ((h1 | h1) | h1)
      · exact Or.inr (Or.inl h1.symm)
      · exact Or.inl h1
      · exact Or.inr (Or.inr h1)
    · rintro (h1 | h1 | h1)
      · exact Or.inl (Or.inr h1)
      · exact Or.inl (Or.inl h1.symm)
      · exact Or.inr h1

theorem get_foldDeltas_of_not_mem (x : Ext) (items : List Item) (m : MutationMap) (k : Nat)
    (h : ∀ r ∈ items, r.version ≠ k) : (foldDeltas x m items).get k = m.get k := by
  induction items generalizing m with
  | nil => simp [foldDeltas]
  | cons a items ih =>
    have h1 := ih (m.set a.version (deltaContent x a))
      (fun r hr => h r (List.mem_cons_of_mem _ hr))
    simp only [foldDeltas, List.foldl_cons] at h1 ⊢
    rw [h1, get_set_of_ne]
    exact fun e => h a (List.mem_cons_self _ _) e.symm

/-- With versions all different, the folded map holds at the version of each
record the content of this record. -/
theorem get_foldDeltas_of_mem (x : Ext) (items : List Item) (m : MutationMap)
    (hd : items.Pairwise (fun a b => a.version > b.version)) (r : Item) (hr : r ∈ items) :
    (foldDeltas x m items).get r.version = some (deltaContent x r) := by
  induction items generalizing m with
  | nil => simp at hr
  | cons a items ih =>
    rw [List.pairwise_cons] at hd
    simp only [foldDeltas, List.foldl_cons]
    rcases List.mem_cons.1 hr with e | hr1
    · subst e
      have := get_foldDeltas_of_not_mem x items (m.set r.version (deltaContent x r)) r.version
        (fun b hb => Nat.ne_of_lt (hd.1 b hb))
      simp only [foldDeltas] at this
      rw [this, get_set_self]
    · exact ih (m.set a.version (deltaContent x a)) hd.2 hr1

/-! ## The lists `ReadPostingList` returns -/

/-- The loop on a single record it does not move past, when it returns a
list: the record is skipped (deleted, expired or of another key), or it is a
Complete record taken as the snapshot, or it is a Delta record marked
`DiscardEarlierVersions`, which is folded. -/
theorem readLoop_single_ok (x : Ext) (item : Item) (pos : Nat) (l l1 : PList) (p1 : Nat)
    (h : passes x l.key item = false) (hr : readLoop x [item] pos l = (.ok l1, p1)) :
    (l1 = l ∧ (item.isDeletedOrExpired = true ∨ item.key ≠ l.key)) ∨
    (item.isDeletedOrExpired = false ∧ item.key = l.key ∧ item.isComplete x = true ∧
      (unmarshalOrCopy x l.plist item).2 = none ∧
      l1 = { l with plist := (unmarshalOrCopy x l.plist item).1, minTs := item.version }) ∨
    (item.isDeletedOrExpired = false ∧ item.key = l.key ∧ item.isComplete x = false ∧
      item.isDelta x = true ∧ item.discardEarlierVersions = true ∧
      l1 = { l with mutationMap := l.mutationMap.set item.version (deltaContent x item) }) := by
  have hp := passes_iff x l.key item
  rw [h] at hp
  simp only [readLoop] at hr
  by_cases hd : item.isDeletedOrExpired = true
  · simp only [hd, if_true, Prod.mk.injEq, ReadResult.ok.injEq] at hr
    exact Or.inl ⟨hr.1.symm, Or.inl hd⟩
  · by_cases hk : item.key = l.key
    · by_cases hc : item.isComplete x = true
      · simp only [hd, hk, hc] at hr
        rcases hu : unmarshalOrCopy x l.plist item with ⟨pl, _ | e⟩
        · rw [hu] at hr
          simp only [Bool.false_eq_true, ↓reduceIte, ne_eq, not_true_eq_false, Prod.mk.injEq,
            ReadResult.ok.injEq] at hr
          exact Or.inr (Or.inl ⟨by simpa using hd, hk, hc, rfl, hr.1.symm⟩)
        · rw [hu] at hr
          simp at hr
      · by_cases hdl : item.isDelta x = true
        · cases hv : item.value with
          | error e => simp [hd, hk, hc, hdl, hv] at hr
          | ok val =>
            rcases hu : x.Unmarshal val with ⟨pl, _ | e⟩
            · by_cases hdi : item.discardEarlierVersions = true
              · simp only [hd, hk, hc, hdl, hv, hu, hdi, Bool.false_eq_true, ↓reduceIte, ne_eq,
                  not_true_eq_false, Prod.mk.injEq, ReadResult.ok.injEq] at hr
                refine Or.inr (Or.inr ⟨by simpa using hd, hk, by simpa using hc, hdl, hdi, ?_⟩)
                rw [← hr.1]
                simp [deltaContent, hv, hu, stampCommitTs]
              · exfalso
                have : (false = true) := hp.2 ⟨val, hv, by simpa using hd, hk, by simpa using hc,
                  hdl, by simpa using hdi, by rw [hu]⟩
                exact Bool.false_ne_true this
            · simp [hd, hk, hc, hdl, hv, hu] at hr
        · simp [hd, hk, hc, hdl] at hr
    · simp only [hd, hk, Bool.false_eq_true, ↓reduceIte, ne_eq, not_false_eq_true, Prod.mk.injEq,
        ReadResult.ok.injEq] at hr
      exact Or.inl ⟨hr.1.symm, Or.inr hk⟩

/-- The shape of every list the loop returns: the longest run of records the
walk moves past is folded into the map, and the record after them, if any,
is skipped, or taken as the snapshot, or folded as the last one. -/
theorem readLoop_ok_cases (x : Ext) (items : List Item) (pos : Nat) (l l1 : PList) (p1 : Nat)
    (hr : readLoop x items pos l = (.ok l1, p1)) :
    (l1 = { l with mutationMap := foldDeltas x l.mutationMap (items.takeWhile (passes x l.key)) } ∧
      (items.dropWhile (passes x l.key) = [] ∨
        ∃ s post, items.dropWhile (passes x l.key) = s :: post ∧
          (s.isDeletedOrExpired = true ∨ s.key ≠ l.key))) ∨
    (∃ s post, items.dropWhile (passes x l.key) = s :: post ∧
      s.isDeletedOrExpired = false ∧ s.key = l.key ∧ s.isComplete x = true ∧
      (unmarshalOrCopy x l.plist s).2 = none ∧
      l1 = { l with
        mutationMap := foldDeltas x l.mutationMap (items.takeWhile (passes x l.key)),
        plist := (unmarshalOrCopy x l.plist s).1, minTs := s.version }) ∨
    (∃ s post, items.dropWhile (passes x l.key) = s :: post ∧
      s.isDeletedOrExpired = false ∧ s.key = l.key ∧ s.isComplete x = false ∧
      s.isDelta x = true ∧ s.discardEarlierVersions = true ∧
      l1 = { l with
        mutationMap := foldDeltas x l.mutationMap
          (items.takeWhile (passes x l.key) ++ [s]) }) := by
  rw [readLoop_eq_stop] at hr
  cases hd : items.dropWhile (passes x l.key) with
  | nil =>
    rw [hd] at hr
    simp only [Prod.mk.injEq, ReadResult.ok.injEq] at hr
    exact Or.inl ⟨hr.1.symm, Or.inl rfl⟩
  | cons s post =>
    rw [hd] at hr
    have hs : passes x l.key s = false := by
      have := List.head_dropWhile_not (passes x l.key) items (by rw [hd]; simp)
      simpa [hd] using this
    rcases readLoop_single_ok x s _
      { l with mutationMap := foldDeltas x l.mutationMap (items.takeWhile (passes x l.key)) }
      l1 p1 hs hr with h | h | h
    · exact Or.inl ⟨h.1, Or.inr ⟨s, post, rfl, h.2⟩⟩
    · exact Or.inr (Or.inl ⟨s, post, rfl, h.1, h.2.1, h.2.2.1, h.2.2.2.1, h.2.2.2.2⟩)
    · refine Or.inr (Or.inr ⟨s, post, rfl, h.1, h.2.1, h.2.2.1, h.2.2.2.1, h.2.2.2.2.1, ?_⟩)
      rw [h.2.2.2.2.2]
      simp [foldDeltas, List.foldl_append]

theorem readLoop_pos (x : Ext) (items : List Item) (pos : Nat) (l : PList) :
    (readLoop x items pos l).2 = pos + (items.takeWhile (passes x l.key)).length := by
  rw [readLoop_eq_stop]
  cases hd : items.dropWhile (passes x l.key) with
  | nil => rfl
  | cons s post =>
    have hs : passes x l.key s = false := by
      have := List.head_dropWhile_not (passes x l.key) items (by rw [hd]; simp)
      simpa [hd] using this
    exact (readLoop_cons_stop x s [] _
      { l with mutationMap := foldDeltas x l.mutationMap (items.takeWhile (passes x l.key)) }
      hs).2

/-- A list that splits into records the walk moves past and a record it does
not move past splits so in one way only. -/
theorem takeWhile_dropWhile_of_split (p : Item → Bool) (pre : List Item) (c : Item)
    (post : List Item) (hpre : ∀ r ∈ pre, p r = true) (hc : p c = false) :
    (pre ++ c :: post).takeWhile p = pre ∧ (pre ++ c :: post).dropWhile p = c :: post := by
  induction pre with
  | nil => simp [List.takeWhile_cons, List.dropWhile_cons, hc]
  | cons a pre ih =>
    have ha : p a = true := hpre a (List.mem_cons_self _ _)
    have h := ih (fun r hr => hpre r (List.mem_cons_of_mem _ hr))
    simp [List.takeWhile_cons, List.dropWhile_cons, ha, h.1, h.2]

theorem passes_eq_false_of_isComplete (x : Ext) (key : Bytes) (c : Item)
    (hc : c.isComplete x = true) : passes x key c = false := by
  cases hv : c.value <;> simp [passes, hv, hc]

theorem passes_eq_false_of_deleted (x : Ext) (key : Bytes) (c : Item)
    (hc : c.isDeletedOrExpired = true) : passes x key c = false := by
  cases hv : c.value <;> simp [passes, hv, hc]

theorem passes_eq_false_of_discard (x : Ext) (key : Bytes) (c : Item)
    (hc : c.discardEarlierVersions = true) : passes x key c = false := by
  cases hv : c.value <;> simp [passes, hv, hc]

/-! ## C1: `minTs` and the keys of the map -/

/-- C1: for records of one key in strictly descending version order, the
versions being commit timestamps and so not 0 (0 is the absent `minTs`),
when `ReadPostingList` returns a list, its `minTs` is the version of the
first live Complete record the walk reaches, and `minTs` stays 0 when the
walk reaches none; every key of its map is the version of a Delta record and
is strictly greater than `minTs`, and when a Complete record is reached every
key is the version of a record before it: no Delta record older than the
Complete record is folded. -/
theorem ReadPostingList_minTs (x : Ext) (key : Bytes) (recs : List Item) (l : PList)
    (it1 : Iterator)
    (hkey : ∀ r ∈ recs, r.key = key)
    (hdesc : recs.Pairwise (fun a b => a.version > b.version))
    (hpos : ∀ r ∈ recs, 0 < r.version)
    (hret : ReadPostingList x key ⟨recs, 0⟩ = (.ok l, it1)) :
    (∀ pre c post, recs = pre ++ c :: post → (∀ r ∈ pre, passes x key r = true) →
        c.isDeletedOrExpired = false → c.isComplete x = true →
        l.minTs = c.version ∧
          ∀ k ∈ l.mutationMap.keys, c.version < k ∧ ∃ r ∈ pre, r.version = k) ∧
    ((¬ ∃ pre c post, recs = pre ++ c :: post ∧ (∀ r ∈ pre, passes x key r = true) ∧
        c.isDeletedOrExpired = false ∧ c.isComplete x = true) → l.minTs = 0) ∧
    (∀ k ∈ l.mutationMap.keys,
      (∃ r ∈ recs, r.version = k ∧ r.isComplete x = false ∧ r.isDelta x = true) ∧
        l.minTs < k) := by
  have hr : readLoop x recs 0 (PList.new key) = (.ok l, it1.pos) := by
    have h1 := congrArg Prod.fst hret
    have h2 := congrArg (fun r => r.2.pos) hret
    simp only [ReadPostingList, List.drop_zero] at h1 h2
    exact Prod.ext h1 h2
  have hnk : (PList.new key).key = key := rfl
  have hsplit := List.takeWhile_append_dropWhile (passes x key) recs
  have htw : ∀ r ∈ recs.takeWhile (passes x key),
      r ∈ recs ∧ r.isComplete x = false ∧ r.isDelta x = true := by
    intro r hr1
    have hp := List.mem_takeWhile_imp hr1
    obtain ⟨val, -, -, -, hc, hdl, -, -⟩ := (passes_iff x key r).1 hp
    exact ⟨(List.takeWhile_sublist _).subset hr1, hc, hdl⟩
  have hcases := readLoop_ok_cases x recs 0 (PList.new key) l it1.pos hr
  rw [hnk] at hcases
  refine ⟨?_, ?_, ?_⟩
  · intro pre c post hrecs hpre hlive hcomp
    have hcp := passes_eq_false_of_isComplete x key c hcomp
    have hs := takeWhile_dropWhile_of_split (passes x key) pre c post hpre hcp
    rw [← hrecs] at hs
    rw [hs.1, hs.2] at hcases
    have hck : c.key = key := hkey c (by rw [hrecs]; simp)
    have hgt : ∀ a ∈ pre, c.version < a.version := by
      intro a ha
      rw [hrecs, List.pairwise_append] at hdesc
      exact hdesc.2.2 a ha c (List.mem_cons_self _ _)
    rcases hcases with ⟨-, h | ⟨s, p, he, h⟩⟩ | ⟨s, p, he, -, -, -, -, hl⟩ |
        ⟨s, p, he, -, -, hc, -⟩
    · simp at h
    · obtain ⟨rfl, -⟩ := List.cons.inj he
      rcases h with h | h
      · rw [hlive] at h; exact absurd h Bool.false_ne_true
      · exact absurd hck h
    · obtain ⟨rfl, -⟩ := List.cons.inj he
      subst hl
      refine ⟨rfl, ?_⟩
      intro k hk
      have := (mem_keys_foldDeltas x pre [] k).1 hk
      rcases this with h | ⟨r, hr1, hrk⟩
      · simp [PList.new, MutationMap.keys] at h
      · exact ⟨hrk ▸ hgt r hr1, r, hr1, hrk⟩
    · obtain ⟨rfl, -⟩ := List.cons.inj he
      rw [hcomp] at hc; exact absurd hc (by simp)
  · intro hnone
    rcases hcases with ⟨hl, -⟩ | ⟨s, p, he, hlive, -, hc, -, -⟩ | ⟨s, p, he, -, -, -, -, -, hl⟩
    · rw [hl]; rfl
    · exfalso
      apply hnone
      refine ⟨recs.takeWhile (passes x key), s, p, ?_, fun r hr1 => List.mem_takeWhile_imp hr1,
        hlive, hc⟩
      rw [← he, hsplit]
    · rw [hl]; rfl
  · intro k hk
    rcases hcases with ⟨hl, -⟩ | ⟨s, p, he, -, -, -, -, hl⟩ | ⟨s, p, he, -, -, hc, hdl, -, hl⟩
    · subst hl
      rcases (mem_keys_foldDeltas x _ [] k).1 hk with h | ⟨r, hr1, hrk⟩
      · simp [PList.new, MutationMap.keys] at h
      · refine ⟨⟨r, (htw r hr1).1, hrk, (htw r hr1).2⟩, ?_⟩
        show 0 < k
        exact hrk ▸ hpos r (htw r hr1).1
    · subst hl
      rcases (mem_keys_foldDeltas x _ [] k).1 hk with h | ⟨r, hr1, hrk⟩
      · simp [PList.new, MutationMap.keys] at h
      · refine ⟨⟨r, (htw r hr1).1, hrk, (htw r hr1).2⟩, ?_⟩
        rw [← hsplit, he, List.pairwise_append] at hdesc
        exact hrk ▸ hdesc.2.2 r hr1 s (List.mem_cons_self _ _)
    · subst hl
      rcases (mem_keys_foldDeltas x _ [] k).1 hk with h | ⟨r, hr1, hrk⟩
      · simp [PList.new, MutationMap.keys] at h
      · have hmem : r ∈ recs ∧ r.isComplete x = false ∧ r.isDelta x = true := by
          rcases List.mem_append.1 hr1 with h1 | h1
          · exact htw r h1
          · obtain rfl := List.mem_singleton.1 h1
            refine ⟨?_, hc, hdl⟩
            rw [← hsplit, he]
            simp
        refine ⟨⟨r, hmem.1, hrk, hmem.2⟩, ?_⟩
        show 0 < k
        exact hrk ▸ hpos r hmem.1

/-- C1 at the records Delta 105, Delta 101, Complete 100, Delta 99: `minTs`
is 100, the keys are 101 and 105, and each is strictly greater than `minTs`;
the Delta record at 99 is not folded. -/
theorem ReadPostingList_minTs_witness :
    (sampleRead [deltaAt 105, deltaAt 101, completeAt 100, deltaAt 99]).minTs = 100 ∧
    (sampleRead [deltaAt 105, deltaAt 101, completeAt 100, deltaAt 99]).mutationMap.keys
      = [101, 105] ∧
    ∀ k ∈ (sampleRead [deltaAt 105, deltaAt 101, completeAt 100, deltaAt 99]).mutationMap.keys,
      (∃ r ∈ [deltaAt 105, deltaAt 101, completeAt 100, deltaAt 99],
        r.version = k ∧ r.isComplete sampleExt = false ∧ r.isDelta sampleExt = true) ∧
      (sampleRead [deltaAt 105, deltaAt 101, completeAt 100, deltaAt 99]).minTs < k :=
  ⟨rfl, rfl,
    (ReadPostingList_minTs sampleExt k1
      [deltaAt 105, deltaAt 101, completeAt 100, deltaAt 99]
      (sampleRead [deltaAt 105, deltaAt 101, completeAt 100, deltaAt 99])
      ⟨[deltaAt 105, deltaAt 101, completeAt 100, deltaAt 99], 2⟩
      (by decide) (by simp [deltaAt, completeAt]) (by decide) rfl).2.2⟩

/-! ## C2: the walk stops at a deleted record and at a discard marker -/

theorem readLoop_stop_tail (x : Ext) (key : Bytes) (s : Item) (post1 post2 : List Item)
    (hs : passes x key s = false) (pre : List Item) (pos : Nat) (l : PList) (hl : l.key = key) :
    readLoop x (pre ++ s :: post1) pos l = readLoop x (pre ++ s :: post2) pos l := by
  induction pre generalizing pos l with
  | nil =>
    rw [← hl] at hs
    rw [List.nil_append, List.nil_append, (readLoop_cons_stop x s post1 pos l hs).1,
      (readLoop_cons_stop x s post2 pos l hs).1]
  | cons a pre ih =>
    rw [List.cons_append, List.cons_append]
    by_cases ha : passes x l.key a = true
    · rw [readLoop_cons_passes x a (pre ++ s :: post1) pos l ha,
        readLoop_cons_passes x a (pre ++ s :: post2) pos l ha]
      exact ih (pos + 1) _ hl
    · have ha1 : passes x l.key a = false := by simpa using ha
      rw [(readLoop_cons_stop x a (pre ++ s :: post1) pos l ha1).1,
        (readLoop_cons_stop x a (pre ++ s :: post2) pos l ha1).1]

theorem takeWhile_length_le_of_stop (p : Item → Bool) (pre : List Item) (s : Item)
    (post : List Item) (hs : p s = false) :
    ((pre ++ s :: post).takeWhile p).length ≤ pre.length := by
  induction pre with
  | nil => simp [List.takeWhile_cons, hs]
  | cons a pre ih =>
    by_cases ha : p a = true
    · simpa [List.takeWhile_cons, ha] using ih
    · simp [List.takeWhile_cons, ha]

/-- C2: let `s` be a record that is deleted or expired, or marked
`DiscardEarlierVersions`. Two sequences that agree up to and including `s`
give the same result and leave the iterator at the same place, which is not
past `s`. When the walk gets as far as `s`: a deleted or expired `s` is not
folded and the iterator is left on it; a live Delta record `s` with the
marker is folded, and the iterator is left on it. -/
theorem ReadPostingList_stops (x : Ext) (key : Bytes) (pre : List Item) (s : Item)
    (post1 post2 : List Item)
    (hs : s.isDeletedOrExpired = true ∨ s.discardEarlierVersions = true) :
    (ReadPostingList x key ⟨pre ++ s :: post1, 0⟩).1
        = (ReadPostingList x key ⟨pre ++ s :: post2, 0⟩).1 ∧
    (ReadPostingList x key ⟨pre ++ s :: post1, 0⟩).2.pos
        = (ReadPostingList x key ⟨pre ++ s :: post2, 0⟩).2.pos ∧
    (ReadPostingList x key ⟨pre ++ s :: post1, 0⟩).2.pos ≤ pre.length ∧
    ((∀ r ∈ pre, passes x key r = true) → s.isDeletedOrExpired = true →
      (ReadPostingList x key ⟨pre ++ s :: post1, 0⟩).1
          = .ok { PList.new key with mutationMap := foldDeltas x [] pre } ∧
        (ReadPostingList x key ⟨pre ++ s :: post1, 0⟩).2.pos = pre.length) ∧
    ((∀ r ∈ pre, passes x key r = true) → s.discardEarlierVersions = true →
      passes x key { s with discardEarlierVersions := false } = true →
      (ReadPostingList x key ⟨pre ++ s :: post1, 0⟩).1
          = .ok { PList.new key with mutationMap := foldDeltas x [] (pre ++ [s]) } ∧
        (ReadPostingList x key ⟨pre ++ s :: post1, 0⟩).2.pos = pre.length) := by
  have hsp : passes x key s = false := by
    rcases hs with h | h
    · exact passes_eq_false_of_deleted x key s h
    · exact passes_eq_false_of_discard x key s h
  have htail := readLoop_stop_tail x key s post1 post2 hsp pre 0 (PList.new key) rfl
  have hpos := readLoop_pos x (pre ++ s :: post1) 0 (PList.new key)
  have hle := takeWhile_length_le_of_stop (passes x key) pre s post1 hsp
  simp only [ReadPostingList, List.drop_zero]
  refine ⟨by rw [htail], by rw [htail], ?_, ?_, ?_⟩
  · rw [hpos]
    simpa using hle
  · intro hpre hdel
    rw [readLoop_append_passes x pre (s :: post1) 0 (PList.new key) hpre]
    simp [readLoop, hdel, PList.new]
  · intro hpre hdis hlive
    rw [readLoop_append_passes x pre (s :: post1) 0 (PList.new key) hpre]
    obtain ⟨val, hv, hd, hk, hc, hdl, -, hu⟩ :=
      (passes_iff x key { s with discardEarlierVersions := false }).1 hlive
    simp only at hv hd hk
    have hc1 : s.isComplete x = false := hc
    have hdl1 : s.isDelta x = true := hdl
    have hu1 : x.Unmarshal val = ((x.Unmarshal val).1, none) := by rw [← hu]
    rw [readLoop]
    simp only [hd, hk, hc1, hdl1, hv, hdis]
    rw [hu1]
    simp [PList.new, foldDeltas, List.foldl_append, deltaContent, hv, stampCommitTs]

/-- C2 at the records Delta 105, deleted 101: a Complete record at 100 after
them changes nothing, and the iterator is left on the deleted record. -/
theorem ReadPostingList_stops_witness :
    (deletedAt 101).isDeletedOrExpired = true ∧
    (ReadPostingList sampleExt k1 ⟨[deltaAt 105] ++ deletedAt 101 :: [completeAt 100], 0⟩).1
        = (ReadPostingList sampleExt k1 ⟨[deltaAt 105] ++ deletedAt 101 :: [], 0⟩).1 ∧
    (ReadPostingList sampleExt k1
        ⟨[deltaAt 105] ++ deletedAt 101 :: [completeAt 100], 0⟩).2.pos ≤ [deltaAt 105].length :=
  ⟨rfl,
    (ReadPostingList_stops sampleExt k1 [deltaAt 105] (deletedAt 101) [completeAt 100] []
      (Or.inl rfl)).1,
    (ReadPostingList_stops sampleExt k1 [deltaAt 105] (deletedAt 101) [completeAt 100] []
      (Or.inl rfl)).2.2.1⟩

/-! ## C3: Delta records above a Complete record -/

theorem stampCommitTs_spec (pl : PostingList) (version : Nat) :
    (stampCommitTs pl version).CommitTs = version ∧
      (∀ mpost ∈ (stampCommitTs pl version).Postings, mpost.CommitTs = version) ∧
      (stampCommitTs pl version).Pack = pl.Pack ∧
      (stampCommitTs pl version).Postings.map (fun q => (q.Uid, q.Value, q.StartTs))
        = pl.Postings.map (fun q => (q.Uid, q.Value, q.StartTs)) := by
  refine ⟨rfl, ?_, rfl, ?_⟩
  · intro mpost h
    simp only [stampCommitTs, List.mem_map] at h
    obtain ⟨q, -, rfl⟩ := h
    rfl
  · simp [stampCommitTs, List.map_map, Function.comp_def]

/-- C3: on live Delta records of the key at strictly descending versions,
none marked `DiscardEarlierVersions`, followed by a live Complete record of
the key at a lower version, all with readable and well-formed payloads,
`ReadPostingList` returns a list with `minTs` the version of the Complete
record, with the content of the Complete record as snapshot, and with a map
whose keys are exactly the versions of the Delta records, the entry at a
version being the unmarshalled payload of the Delta record of this version,
with all its fields and postings, where only `CommitTs` is set to the version
in the message and in each posting. The iterator is left on the Complete
record. -/
theorem ReadPostingList_deltas_then_complete (x : Ext) (key : Bytes) (deltas : List Item)
    (c : Item) (post : List Item) (val : Bytes)
    (hpre : ∀ r ∈ deltas, passes x key r = true)
    (hdesc : (deltas ++ [c]).Pairwise (fun a b => a.version > b.version))
    (hlive : c.isDeletedOrExpired = false) (hkey : c.key = key)
    (hcomp : c.isComplete x = true) (hval : c.value = .ok val)
    (hum : val.length ≠ 0 → (x.Unmarshal val).2 = none) :
    ∃ l, ReadPostingList x key ⟨deltas ++ c :: post, 0⟩
        = (.ok l, ⟨deltas ++ c :: post, deltas.length⟩) ∧
      l.key = key ∧ l.minTs = c.version ∧
      l.plist = (if val.length = 0 then PostingList.empty else (x.Unmarshal val).1) ∧
      (x.Unmarshal [] = (PostingList.empty, none) → l.plist = (x.Unmarshal val).1) ∧
      (∀ k, k ∈ l.mutationMap.keys ↔ ∃ r ∈ deltas, r.version = k) ∧
      (∀ r ∈ deltas, ∀ v, r.value = .ok v →
        l.mutationMap.get r.version
          = some { Pack := (x.Unmarshal v).1.Pack,
                   Postings := (x.Unmarshal v).1.Postings.map (fun q =>
                     { Uid := q.Uid, Value := q.Value, StartTs := q.StartTs,
                       CommitTs := r.version }),
                   CommitTs := r.version }) := by
  have hu : unmarshalOrCopy x PostingList.empty c
      = ((if val.length = 0 then PostingList.empty else (x.Unmarshal val).1), none) := by
    unfold unmarshalOrCopy
    rw [hval]
    by_cases h0 : val.length = 0
    · simp [h0]
    · simp only [h0, if_false]
      rw [← hum h0]
  have hloop : readLoop x (deltas ++ c :: post) 0 (PList.new key) =
      (.ok { PList.new key with
          mutationMap := foldDeltas x [] deltas,
          plist := (if val.length = 0 then PostingList.empty else (x.Unmarshal val).1),
          minTs := c.version }, deltas.length) := by
    rw [readLoop_append_passes x deltas (c :: post) 0 (PList.new key) hpre, readLoop]
    simp only [hlive, hkey, hcomp, PList.new]
    rw [hu]
    simp
  refine ⟨{ PList.new key with
      mutationMap := foldDeltas x [] deltas,
      plist := (if val.length = 0 then PostingList.empty else (x.Unmarshal val).1),
      minTs := c.version }, ?_, rfl, rfl, rfl, ?_, ?_, ?_⟩
  · simp only [ReadPostingList, List.drop_zero, hloop]
  · intro hempty
    by_cases h0 : val.length = 0
    · have : val = [] := List.length_eq_zero.1 h0
      subst this
      simp [hempty]
    · simp [h0]
  · intro k
    rw [mem_keys_foldDeltas]
    simp [MutationMap.keys]
  · intro r hr v hv
    have hd : deltas.Pairwise (fun a b => a.version > b.version) :=
      (List.pairwise_append.1 hdesc).1
    have := get_foldDeltas_of_mem x deltas [] hd r hr
    rw [this]
    simp [deltaContent, hv, stampCommitTs]

/-- C3 at the scenario of the specification: Complete at 100, Delta at 101
and 105 give `minTs = 100`, the payload of the Complete record as snapshot,
and the map with the keys 101 and 105, each entry being the payload of its
record with `CommitTs` set to its version. -/
theorem ReadPostingList_deltas_then_complete_witness :
    (∀ r ∈ [deltaAt 105, deltaAt 101], passes sampleExt k1 r = true) ∧
    sampleRead [deltaAt 105, deltaAt 101, completeAt 100]
      = { key := k1,
          plist := { Pack := [100], Postings := [⟨100, [], 0, 0⟩], CommitTs := 0 },
          mutationMap :=
            [(101, { Pack := [101], Postings := [⟨101, [], 0, 101⟩], CommitTs := 101 }),
             (105, { Pack := [105], Postings := [⟨105, [], 0, 105⟩], CommitTs := 105 })],
          minTs := 100, estimatedSize := 0 } ∧
    ∃ l, ReadPostingList sampleExt k1 ⟨[deltaAt 105, deltaAt 101] ++ completeAt 100 :: [], 0⟩
        = (.ok l, ⟨[deltaAt 105, deltaAt 101] ++ completeAt 100 :: [],
            [deltaAt 105, deltaAt 101].length⟩) ∧
      l.key = k1 ∧ l.minTs = 100 ∧
      l.plist = { Pack := [100], Postings := [⟨100, [], 0, 0⟩], CommitTs := 0 } ∧
      l.mutationMap.get 105
        = some { Pack := [105], Postings := [⟨105, [], 0, 105⟩], CommitTs := 105 } :=
  ⟨by decide, by decide,
    (ReadPostingList_deltas_then_complete sampleExt k1 [deltaAt 105, deltaAt 101]
      (completeAt 100) [] [100] (by decide) (by simp [deltaAt, completeAt]) rfl rfl rfl rfl
      (fun _ => rfl)).imp (fun _ h =>
        ⟨h.1, h.2.1, h.2.2.1, h.2.2.2.1,
          h.2.2.2.2.2.2 (deltaAt 105) (List.mem_cons_self _ _) [105] rfl⟩)⟩

/-! ## C4: the fatal condition on the metadata of a record -/

/-- The loop on one record stops the process for its metadata exactly when
the record is live, has the key and has neither bit. -/
theorem readLoop_single_fatalMeta (x : Ext) (item : Item) (pos : Nat) (l : PList) (m : Nat) :
    (readLoop x [item] pos l).1 = .fatalMeta m ↔
      item.key = l.key ∧ item.isDeletedOrExpired = false ∧ item.isComplete x = false ∧
        item.isDelta x = false ∧ item.userMeta = m := by
  constructor
  · intro h
    simp only [readLoop] at h
    by_cases hd : item.isDeletedOrExpired = true
    · simp [hd] at h
    · by_cases hk : item.key = l.key
      · by_cases hc : item.isComplete x = true
        · simp only [hd, hk, hc] at h
          rcases hu : unmarshalOrCopy x l.plist item with ⟨pl, _ | e⟩ <;> rw [hu] at h <;>
            simp at h
        · by_cases hdl : item.isDelta x = true
          · exfalso
            cases hv : item.value with
            | error e => simp [hd, hk, hc, hdl, hv] at h
            | ok val =>
              rcases hu : x.Unmarshal val with ⟨pl, _ | e⟩
              · by_cases hdi : item.discardEarlierVersions = true
                · simp [hd, hk, hc, hdl, hv, hu, hdi] at h
                · simp [hd, hk, hc, hdl, hv, hu, hdi] at h
              · simp [hd, hk, hc, hdl, hv, hu] at h
          · simp only [hd, hk, hc, hdl, Bool.false_eq_true, ↓reduceIte, ne_eq,
              not_true_eq_false, ReadResult.fatalMeta.injEq] at h
            exact ⟨hk, by simpa using hd, by simpa using hc, by simpa using hdl, h⟩
      · simp [hd, hk] at h
  · rintro ⟨hk, hd, hc, hdl, hm⟩
    rw [readLoop]
    simp [hk, hd, hc, hdl, hm]

/-- C4: `ReadPostingList` ends in the fatal condition `unexpected meta` if and
only if, after records it folds and moves past, the walk comes to a record
that has the key, is not deleted or expired and has neither the Complete nor
the Delta bit; the metadata reported is that of this record, and no list is
returned then. -/
theorem ReadPostingList_fatalMeta_iff (x : Ext) (key : Bytes) (recs : List Item) (m : Nat) :
    ((ReadPostingList x key ⟨recs, 0⟩).1 = .fatalMeta m ↔
      ∃ pre r post, recs = pre ++ r :: post ∧ (∀ p ∈ pre, passes x key p = true) ∧
        r.key = key ∧ r.isDeletedOrExpired = false ∧ r.isComplete x = false ∧
        r.isDelta x = false ∧ r.userMeta = m) ∧
    ((ReadPostingList x key ⟨recs, 0⟩).1 = .fatalMeta m →
      ∀ l, (ReadPostingList x key ⟨recs, 0⟩).1 ≠ .ok l) := by
  refine ⟨?_, fun h l hl => by rw [h] at hl; exact ReadResult.noConfusion hl⟩
  simp only [ReadPostingList, List.drop_zero]
  constructor
  · intro h
    rw [readLoop_eq_stop] at h
    have hsplit := List.takeWhile_append_dropWhile (passes x key) recs
    cases hd : recs.dropWhile (passes x (PList.new key).key) with
    | nil =>
      rw [hd] at h
      exact ReadResult.noConfusion h
    | cons s post =>
      rw [hd] at h
      obtain ⟨hk, hlive, hc, hdl, hm⟩ := (readLoop_single_fatalMeta x s _ _ m).1 h
      refine ⟨recs.takeWhile (passes x key), s, post, ?_,
        fun r hr => List.mem_takeWhile_imp hr, hk, hlive, hc, hdl, hm⟩
      have hd1 : recs.dropWhile (passes x key) = s :: post := hd
      rw [← hd1, hsplit]
  · rintro ⟨pre, r, post, rfl, hpre, hk, hlive, hc, hdl, hm⟩
    rw [readLoop_append_passes x pre (r :: post) 0 (PList.new key) hpre, readLoop]
    simp [hk, hlive, hc, hdl, hm, PList.new]

/-- C4 at the records Delta 105 and a live record with metadata 1: the call
ends in the fatal condition, and the record is found after the Delta. -/
theorem ReadPostingList_fatalMeta_iff_witness :
    (ReadPostingList sampleExt k1 ⟨[deltaAt 105, schemaAt 101], 0⟩).1 = .fatalMeta 1 ∧
    (∃ pre r post, [deltaAt 105, schemaAt 101] = pre ++ r :: post ∧
        (∀ p ∈ pre, passes sampleExt k1 p = true) ∧
        r.key = k1 ∧ r.isDeletedOrExpired = false ∧ r.isComplete sampleExt = false ∧
        r.isDelta sampleExt = false ∧ r.userMeta = 1) ∧
    ∀ l, (ReadPostingList sampleExt k1 ⟨[deltaAt 105, schemaAt 101], 0⟩).1 ≠ .ok l :=
  ⟨rfl,
    (ReadPostingList_fatalMeta_iff sampleExt k1 [deltaAt 105, schemaAt 101] 1).1.1 rfl,
    (ReadPostingList_fatalMeta_iff sampleExt k1 [deltaAt 105, schemaAt 101] 1).2 rfl⟩

/-! ## C5: `getNew` on a key whose newest record is deleted -/

/-- C5: when the newest record of the key in the store is marked deleted or
expired and the point lookup itself does not fail, the lookup reports
`ErrKeyNotFound` and `getNew` returns no error and the empty list of the key:
empty snapshot, empty map and `minTs = 0`. -/
theorem getNew_deleted (x : Ext) (key : Bytes) (pstore : DB) (r : Item)
    (hnew : pstore.records.find? (fun i => i.key == key) = some r)
    (hdel : r.isDeletedOrExpired = true) (hio : pstore.getError key = none) :
    txnGet pstore key = .error Error.ErrKeyNotFound ∧
    getNew x key pstore = .ret (some (PList.new key)) none ∧
    (PList.new key).key = key ∧ (PList.new key).plist = PostingList.empty ∧
    (PList.new key).mutationMap = [] ∧ (PList.new key).minTs = 0 := by
  have h : txnGet pstore key = .error Error.ErrKeyNotFound := by
    simp [txnGet, hio, hnew, hdel]
  refine ⟨h, ?_, rfl, rfl, rfl, rfl⟩
  simp [getNew, h]

/-- C5 at a store whose newest record of `k1` is deleted, above a Complete
record: the empty list, with no error. -/
theorem getNew_deleted_witness :
    deletedStore.records.find? (fun i => i.key == k1) = some (deletedAt 110) ∧
    getNew sampleExt k1 deletedStore = .ret (some (PList.new k1)) none :=
  ⟨rfl, (getNew_deleted sampleExt k1 deletedStore (deletedAt 110) rfl rfl rfl).2.1⟩

/-! ## C6 and C7: what `CommitToDisk` writes -/

theorem written_append (a b : List Event) : written (a ++ b) = written a ++ written b := by
  simp [written, List.filterMap_append]

/-- The record `CommitToDisk` writes for a key whose buffered mutation is
`mutation`, if it has one. -/
def deltaRecord (x : Ext) (commitTs : Nat) (key : Bytes) (mutation : Option Bytes) :
    Option (Bytes × Bytes × Nat × Nat) :=
  mutation.map (fun data => (key, data, x.BitDeltaPosting, commitTs))

theorem diskLoop_written (x : Ext) (w : World) (tx : Txn) (commitTs : Nat)
    (L : Bytes → Nat) (M : Bytes → Option Bytes) (keys : List Bytes) (tr : List Event)
    (hget : ∀ t k, k ∈ keys → w.Get t k = .ok (L k))
    (hmut : ∀ t k, k ∈ keys → w.GetMutation t (L k) tx.StartTs = M k)
    (hset : ∀ t k d, k ∈ keys → w.SetAt t k d x.BitDeltaPosting commitTs = none) :
    (diskLoop x w tx commitTs keys tr).1 = none ∧
      written (diskLoop x w tx commitTs keys tr).2
        = written tr ++ keys.filterMap (fun k => deltaRecord x commitTs k (M k)) := by
  induction keys generalizing tr with
  | nil => simp [diskLoop]
  | cons k keys ih =>
    have hk : k ∈ k :: keys := List.mem_cons_self _ _
    have ih1 := fun t => ih t (fun t k hk => hget t k (List.mem_cons_of_mem _ hk))
      (fun t k hk => hmut t k (List.mem_cons_of_mem _ hk))
      (fun t k d hk => hset t k d (List.mem_cons_of_mem _ hk))
    rw [diskLoop]
    simp only [hget tr k hk, hmut _ k hk]
    cases hm : M k with
    | none =>
      have e1 : deltaRecord x commitTs k (M k) = none := by rw [hm]; rfl
      simp only [List.filterMap_cons, e1]
      rw [(ih1 _).1, (ih1 _).2]
      simp [written_append, written, recordOf]
    | some data =>
      have e1 : deltaRecord x commitTs k (M k)
          = some (k, data, x.BitDeltaPosting, commitTs) := by rw [hm]; rfl
      simp only [hset _ k data hk, List.filterMap_cons, e1]
      rw [(ih1 _).1, (ih1 _).2]
      simp [written_append, written, recordOf]

theorem mem_filterMap_deltaRecord (x : Ext) (commitTs : Nat) (M : Bytes → Option Bytes)
    (keys : List Bytes) (rec : Bytes × Bytes × Nat × Nat) :
    rec ∈ keys.filterMap (fun k => deltaRecord x commitTs k (M k)) ↔
      rec.1 ∈ keys ∧ M rec.1 = some rec.2.1 ∧ rec.2.2 = (x.BitDeltaPosting, commitTs) := by
  rw [List.mem_filterMap]
  constructor
  · rintro ⟨k, hk, h⟩
    cases hm : M k with
    | none => simp [deltaRecord, hm] at h
    | some d =>
      simp only [deltaRecord, hm, Option.map_some', Option.some.injEq] at h
      subst h
      exact ⟨hk, hm, rfl⟩
  · rintro ⟨hk, hm, h⟩
    refine ⟨rec.1, hk, ?_⟩
    obtain ⟨k, d, b, c⟩ := rec
    simp only at hm h
    simp only [deltaRecord, hm, Option.map_some', Option.some.injEq, Prod.mk.injEq, true_and]
    exact ⟨(Prod.mk.inj h).1.symm, (Prod.mk.inj h).2.symm⟩

theorem filter_deltaRecord_of_not_mem (x : Ext) (commitTs : Nat) (M : Bytes → Option Bytes)
    (keys : List Bytes) (k : Bytes) (hk : k ∉ keys) :
    (keys.filterMap (fun k => deltaRecord x commitTs k (M k))).filter
      (fun rec => decide (rec.1 = k)) = [] := by
  rw [List.filter_eq_nil_iff]
  intro rec hrec
  have hmem := ((mem_filterMap_deltaRecord x commitTs M keys rec).1 hrec).1
  have hne : rec.1 ≠ k := fun h => hk (h ▸ hmem)
  simpa using hne

/-- Among the records of keys that are all different, the records of one key
that has a buffered mutation are exactly one record. -/
theorem filter_deltaRecord (x : Ext) (commitTs : Nat) (M : Bytes → Option Bytes)
    (keys : List Bytes) (k : Bytes) (d : Bytes) (hnodup : keys.Nodup) (hk : k ∈ keys)
    (hM : M k = some d) :
    (keys.filterMap (fun k => deltaRecord x commitTs k (M k))).filter
      (fun rec => decide (rec.1 = k)) = [(k, d, x.BitDeltaPosting, commitTs)] := by
  induction keys with
  | nil => simp at hk
  | cons a keys ih =>
    rw [List.nodup_cons] at hnodup
    rw [List.filterMap_cons]
    by_cases hak : a = k
    · subst hak
      have e1 : deltaRecord x commitTs a (M a)
          = some (a, d, x.BitDeltaPosting, commitTs) := by rw [hM]; rfl
      rw [e1]
      simp only [List.filter_cons]
      rw [filter_deltaRecord_of_not_mem x commitTs M keys a hnodup.1]
      simp
    · have hk1 : k ∈ keys := by
        rcases List.mem_cons.1 hk with h | h
        · exact absurd h.symm hak
        · exact h
      cases hMa : M a with
      | none =>
        have e1 : deltaRecord x commitTs a none = none := rfl
        simp only [e1]
        exact ih hnodup.2 hk1
      | some da =>
        have e1 : deltaRecord x commitTs a (some da)
            = some (a, da, x.BitDeltaPosting, commitTs) := rfl
        rw [e1]
        simp only [List.filter_cons]
        rw [ih hnodup.2 hk1]
        simp [hak]

/-- C6: for a non-zero `commitTs`, in a world where the list of each written
key `k` is fetched without error as `L k`, where its buffered mutation at
`StartTs` is `M k`, and where every write succeeds, `CommitToDisk` returns no
error and writes, in the order of the keys, one record for each written key
that has a buffered mutation: the key, the mutation, the Delta bit and the
version `commitTs`. The records written for such a key are this one record, and
every record written is one of these: none for a written key with no buffered mutation,
none for another key. -/
theorem CommitToDisk_writes (x : Ext) (w : World) (ord : List Bytes → List Bytes) (tx : Txn)
    (commitTs : Nat) (L : Bytes → Nat) (M : Bytes → Option Bytes)
    (hc : commitTs ≠ 0)
    (hnodup : tx.deltas.elems.Nodup)
    (hord : (ord tx.deltas.elems).Perm tx.deltas.elems)
    (hget : ∀ t k, k ∈ tx.deltas.elems → w.Get t k = .ok (L k))
    (hmut : ∀ t k, k ∈ tx.deltas.elems → w.GetMutation t (L k) tx.StartTs = M k)
    (hset : ∀ t k d, k ∈ tx.deltas.elems → w.SetAt t k d x.BitDeltaPosting commitTs = none) :
    (CommitToDisk x w ord tx commitTs).1 = none ∧
    (CommitToDisk x w ord tx commitTs).2.1 = tx ∧
    written (CommitToDisk x w ord tx commitTs).2.2
      = (ord tx.deltas.elems).filterMap (fun k => deltaRecord x commitTs k (M k)) ∧
    (∀ k d, k ∈ tx.deltas.elems → M k = some d →
      (written (CommitToDisk x w ord tx commitTs).2.2).filter (fun rec => decide (rec.1 = k))
        = [(k, d, x.BitDeltaPosting, commitTs)]) ∧
    (∀ rec ∈ written (CommitToDisk x w ord tx commitTs).2.2,
      rec.1 ∈ tx.deltas.elems ∧ M rec.1 = some rec.2.1 ∧
        rec.2.2 = (x.BitDeltaPosting, commitTs)) := by
  have hmem : ∀ k, k ∈ ord tx.deltas.elems ↔ k ∈ tx.deltas.elems := fun k => hord.mem_iff
  have h := diskLoop_written x w tx commitTs L M (ord tx.deltas.elems)
    [Event.lock, Event.unlock]
    (fun t k hk => hget t k ((hmem k).1 hk)) (fun t k hk => hmut t k ((hmem k).1 hk))
    (fun t k d hk => hset t k d ((hmem k).1 hk))
  have hw : written (CommitToDisk x w ord tx commitTs).2.2
      = (ord tx.deltas.elems).filterMap (fun k => deltaRecord x commitTs k (M k)) := by
    simp only [CommitToDisk, hc, if_false]
    rw [h.2]
    simp [written, recordOf]
  refine ⟨?_, ?_, hw, ?_, ?_⟩
  · simp only [CommitToDisk, hc, if_false]
    exact h.1
  · simp only [CommitToDisk, hc, if_false]
  · intro k d hk hM
    rw [hw]
    exact filter_deltaRecord x commitTs M _ k d (hord.nodup_iff.2 hnodup) ((hmem k).2 hk) hM
  · intro rec hrec
    rw [hw, mem_filterMap_deltaRecord] at hrec
    exact ⟨(hmem _).1 hrec.1, hrec.2⟩

/-- C6 at the scenario of the specification: key `"k1"`, `StartTs = 5`,
`commitTs = 10` give one Delta record for `"k1"` at version 10. -/
theorem CommitToDisk_writes_witness :
    (10 : Nat) ≠ 0 ∧
    (CommitToDisk sampleExt sampleWorld id sampleTxn 10).1 = none ∧
    written (CommitToDisk sampleExt sampleWorld id sampleTxn 10).2.2
      = [(k1, [1, 2, 3], sampleExt.BitDeltaPosting, 10)] :=
  ⟨by decide,
    (CommitToDisk_writes sampleExt sampleWorld id sampleTxn 10 (fun _ => 7)
      (fun _ => some [1, 2, 3]) (by decide) (by decide) (List.Perm.refl _)
      (fun _ _ _ => rfl) (fun _ _ _ => rfl) (fun _ _ _ _ => rfl)).1,
    (CommitToDisk_writes sampleExt sampleWorld id sampleTxn 10 (fun _ => 7)
      (fun _ => some [1, 2, 3]) (by decide) (by decide) (List.Perm.refl _)
      (fun _ _ _ => rfl) (fun _ _ _ => rfl) (fun _ _ _ _ => rfl)).2.2.1⟩

/-- C7: with `commitTs = 0`, `CommitToDisk` returns no error, makes no outside
call at all (no lock, no list fetch, no write) and leaves the transaction as
it is, for every transaction and every world. -/
theorem CommitToDisk_zero (x : Ext) (w : World) (ord : List Bytes → List Bytes) (tx : Txn) :
    CommitToDisk x w ord tx 0 = (none, tx, []) ∧
    (CommitToDisk x w ord tx 0).2.1.deltas = tx.deltas ∧
    (CommitToDisk x w ord tx 0).2.1.conflicts = tx.conflicts ∧
    written (CommitToDisk x w ord tx 0).2.2 = [] := by
  simp [CommitToDisk, written]

/-! ## C8: the first error ends the call -/

theorem split_unique {α : Type} (P : α → Prop) (mid tail tr0 tr1 : List α) (ev0 ev : α)
    (h : mid ++ ev0 :: tail = tr0 ++ ev :: tr1) (hmid : ∀ a ∈ mid, ¬ P a)
    (htail : ∀ a ∈ tail, ¬ P a) (hev : P ev) : tr0 = mid ∧ ev = ev0 ∧ tr1 = tail := by
  induction mid generalizing tr0 with
  | nil =>
    cases tr0 with
    | nil =>
      simp only [List.nil_append, List.cons.injEq] at h
      exact ⟨rfl, h.1.symm, h.2.symm⟩
    | cons b tr0 =>
      simp only [List.nil_append, List.cons_append, List.cons.injEq] at h
      exact absurd hev (htail ev (by rw [h.2]; simp))
  | cons a mid ih =>
    cases tr0 with
    | nil =>
      simp only [List.nil_append, List.cons_append, List.cons.injEq] at h
      exact absurd (h.1 ▸ hev) (hmid a (List.mem_cons_self _ _))
    | cons b tr0 =>
      simp only [List.cons_append, List.cons.injEq] at h
      obtain ⟨h1, h2, h3⟩ := ih tr0 h.2 (fun c hc => hmid c (List.mem_cons_of_mem _ hc))
      exact ⟨by rw [h.1, h1], h2, h3⟩

theorem FailShape.prepend (fail : Event → Option Error) (T : List Event → Prop)
    (res : Option Error) (pre evs : List Event) (hpre : ∀ a ∈ pre, fail a = none)
    (h : FailShape fail T res evs) : FailShape fail T res (pre ++ evs) := by
  cases res with
  | none =>
    intro a ha
    rcases List.mem_append.1 ha with h1 | h1
    · exact hpre a h1
    · exact h a h1
  | some e =>
    obtain ⟨mid, ev, tail, rfl, hmid, hev, htail, hT⟩ := h
    refine ⟨pre ++ mid, ev, tail, by simp, ?_, hev, htail, hT⟩
    intro a ha
    rcases List.mem_append.1 ha with h1 | h1
    · exact hpre a h1
    · exact hmid a h1

/-- In events that fit an error, an event that fails is the one failing
event: the error is its error, no event before it fails, and the events
after it satisfy `T`. -/
theorem FailShape.first (fail : Event → Option Error) (T : List Event → Prop)
    (res : Option Error) (evs tr0 tr1 : List Event) (ev : Event) (e : Error)
    (h : FailShape fail T res evs) (hsplit : evs = tr0 ++ ev :: tr1) (hev : fail ev = some e) :
    res = some e ∧ T tr1 ∧ ∀ a ∈ tr0, fail a = none := by
  cases res with
  | none =>
    have := h ev (by rw [hsplit]; simp)
    rw [hev] at this
    exact Option.noConfusion this
  | some e1 =>
    obtain ⟨mid, ev0, tail, hevs, hmid, hev0, htail, hT⟩ := h
    have hne : ∀ a, fail a = none → ¬ (fail a ≠ none) := fun a ha hn => hn ha
    obtain ⟨h1, h2, h3⟩ := split_unique (fun a => fail a ≠ none) mid tail tr0 tr1 ev0 ev
      (by rw [← hevs, hsplit]) (fun a ha => hne a (hmid a ha)) (fun a ha => hne a (htail a ha))
      (by show fail ev ≠ none; rw [hev]; simp)
    subst h1 h2 h3
    rw [hev0] at hev
    exact ⟨hev, hT, hmid⟩

theorem diskLoop_shape (x : Ext) (w : World) (tx : Txn) (commitTs : Nat) (keys : List Bytes)
    (tr : List Event) :
    ∃ evs, (diskLoop x w tx commitTs keys tr).2 = tr ++ evs ∧
      FailShape diskFailure (fun t => t = []) (diskLoop x w tx commitTs keys tr).1 evs := by
  induction keys generalizing tr with
  | nil => exact ⟨[], by simp [diskLoop], by simp [diskLoop, FailShape]⟩
  | cons k keys ih =>
    rw [diskLoop]
    cases hg : w.Get tr k with
    | err e =>
      exact ⟨[Event.get k (.err e)], rfl, [], _, [], rfl, by simp, rfl, by simp, rfl⟩
    | ok plist =>
      simp only
      cases hm : w.GetMutation (tr ++ [Event.get k (.ok plist)]) plist tx.StartTs with
      | none =>
        obtain ⟨evs, h1, h2⟩ := ih (tr ++ [Event.get k (.ok plist)] ++
          [Event.getMutation plist tx.StartTs none])
        simp only
        refine ⟨[Event.get k (.ok plist), Event.getMutation plist tx.StartTs none] ++ evs,
          by rw [h1]; simp, ?_⟩
        refine FailShape.prepend _ _ _ _ _ ?_ h2
        intro a ha
        simp only [List.mem_cons, List.mem_singleton, List.not_mem_nil, or_false] at ha
        rcases ha with rfl | rfl <;> rfl
      | some data =>
        simp only
        cases hs : w.SetAt (tr ++ [Event.get k (.ok plist)] ++
            [Event.getMutation plist tx.StartTs (some data)]) k data x.BitDeltaPosting
            commitTs with
        | some e =>
          refine ⟨[Event.get k (.ok plist), Event.getMutation plist tx.StartTs (some data),
            Event.setAt k data x.BitDeltaPosting commitTs (some e)], by simp,
            [Event.get k (.ok plist), Event.getMutation plist tx.StartTs (some data)], _, [],
            rfl, ?_, rfl, by simp, rfl⟩
          intro a ha
          simp only [List.mem_cons, List.mem_singleton, List.not_mem_nil, or_false] at ha
          rcases ha with rfl | rfl <;> rfl
        | none =>
          obtain ⟨evs, h1, h2⟩ := ih (tr ++ [Event.get k (.ok plist)] ++
            [Event.getMutation plist tx.StartTs (some data)] ++
            [Event.setAt k data x.BitDeltaPosting commitTs none])
          simp only
          refine ⟨[Event.get k (.ok plist), Event.getMutation plist tx.StartTs (some data),
            Event.setAt k data x.BitDeltaPosting commitTs none] ++ evs,
            by rw [h1]; simp, ?_⟩
          refine FailShape.prepend _ _ _ _ _ ?_ h2
          intro a ha
          simp only [List.mem_cons, List.mem_singleton, List.not_mem_nil, or_false] at ha
          rcases ha with rfl | rfl | rfl <;> rfl

theorem memLoop_shape (w : World) (tx : Txn) (commitTs : Nat) (fuel : Nat) (keys : List Bytes)
    (tr : List Event) :
    ∃ evs, (memLoop w tx commitTs fuel keys tr).2 = tr ++ evs ∧
      FailShape memFailure (fun t => ∀ a ∈ t, isWork a = false)
        (memLoop w tx commitTs fuel keys tr).1.error evs := by
  induction fuel generalizing keys tr with
  | zero =>
    cases keys with
    | nil => exact ⟨[], by simp [memLoop], by simp [memLoop, FailShape, Outcome.error]⟩
    | cons k keys => exact ⟨[], by simp [memLoop], by simp [memLoop, FailShape, Outcome.error]⟩
  | succ fuel ih =>
    cases keys with
    | nil => exact ⟨[], by simp [memLoop], by simp [memLoop, FailShape, Outcome.error]⟩
    | cons k keys =>
      rw [memLoop]
      cases hg : w.Get tr k with
      | err e =>
        exact ⟨[Event.get k (.err e)], rfl, [], _, [], rfl, by simp, rfl, by simp, by simp⟩
      | ok plist =>
        simp only
        cases hm : w.CommitMutation (tr ++ [Event.get k (.ok plist)]) plist tx.StartTs
            commitTs with
        | none =>
          obtain ⟨evs, h1, h2⟩ := ih keys (tr ++ [Event.get k (.ok plist)] ++
            [Event.commitMutation plist tx.StartTs commitTs none])
          simp only
          refine ⟨[Event.get k (.ok plist),
            Event.commitMutation plist tx.StartTs commitTs none] ++ evs,
            by rw [h1]; simp, ?_⟩
          refine FailShape.prepend _ _ _ _ _ ?_ h2
          intro a ha
          simp only [List.mem_cons, List.mem_singleton, List.not_mem_nil, or_false] at ha
          rcases ha with rfl | rfl <;> rfl
        | some e =>
          simp only
          by_cases he : e = Error.ErrRetry
          · obtain ⟨evs, h1, h2⟩ := ih (k :: keys) (tr ++ [Event.get k (.ok plist)] ++
              [Event.commitMutation plist tx.StartTs commitTs (some e),
                Event.sleep (5 * Millisecond)])
            simp only [he, if_true] at h1 h2 ⊢
            refine ⟨[Event.get k (.ok plist),
              Event.commitMutation plist tx.StartTs commitTs (some Error.ErrRetry),
              Event.sleep (5 * Millisecond)] ++ evs, by rw [h1]; simp, ?_⟩
            refine FailShape.prepend _ _ _ _ _ ?_ h2
            intro a ha
            simp only [List.mem_cons, List.mem_singleton, List.not_mem_nil, or_false] at ha
            rcases ha with rfl | rfl | rfl <;> rfl
          · simp only [he, if_false]
            refine ⟨[Event.get k (.ok plist),
              Event.commitMutation plist tx.StartTs commitTs (some e), Event.warning e],
              by simp, [Event.get k (.ok plist)], _, [Event.warning e], rfl, ?_, ?_, ?_, ?_⟩
            · intro a ha
              obtain rfl := List.mem_singleton.1 ha
              rfl
            · simp [memFailure, he]
            · intro a ha
              obtain rfl := List.mem_singleton.1 ha
              rfl
            · intro a ha
              obtain rfl := List.mem_singleton.1 ha
              rfl

theorem CommitToDisk_shape (x : Ext) (w : World) (ord : List Bytes → List Bytes) (tx : Txn)
    (commitTs : Nat) :
    FailShape diskFailure (fun t => t = []) (CommitToDisk x w ord tx commitTs).1
      (CommitToDisk x w ord tx commitTs).2.2 := by
  by_cases hc : commitTs = 0
  · simp [CommitToDisk, hc, FailShape]
  · obtain ⟨evs, h1, h2⟩ := diskLoop_shape x w tx commitTs (ord tx.deltas.elems)
      [Event.lock, Event.unlock]
    simp only [CommitToDisk, hc, if_false]
    rw [h1]
    refine FailShape.prepend _ _ _ _ _ ?_ h2
    intro a ha
    simp only [List.mem_cons, List.mem_singleton, List.not_mem_nil, or_false] at ha
    rcases ha with rfl | rfl <;> rfl

theorem CommitToMemory_shape (w : World) (ord : List Bytes → List Bytes) (fuel : Nat) (tx : Txn)
    (commitTs : Nat) :
    FailShape memFailure (fun t => ∀ a ∈ t, isWork a = false)
      (CommitToMemory w ord fuel tx commitTs).1.error
      (CommitToMemory w ord fuel tx commitTs).2.2 := by
  obtain ⟨evs, h1, h2⟩ := memLoop_shape w tx commitTs fuel (ord tx.deltas.elems) [Event.lock]
  unfold CommitToMemory
  simp only
  cases ho : (memLoop w tx commitTs fuel (ord tx.deltas.elems) [Event.lock]).1 with
  | running =>
    rw [ho] at h2
    simp only [h1]
    refine FailShape.prepend _ _ _ _ _ ?_ h2
    intro a ha
    obtain rfl := List.mem_singleton.1 ha
    rfl
  | returned r =>
    rw [ho] at h2
    simp only [h1]
    rw [List.append_assoc]
    refine FailShape.prepend _ _ _ _ _ ?_ ?_
    · intro a ha
      obtain rfl := List.mem_singleton.1 ha
      rfl
    · cases r with
      | none =>
        intro a ha
        rcases List.mem_append.1 ha with h | h
        · exact h2 a h
        · obtain rfl := List.mem_singleton.1 h
          rfl
      | some e =>
        obtain ⟨mid, ev, tail, rfl, hmid, hev, htail, hT⟩ := h2
        refine ⟨mid, ev, tail ++ [Event.unlock], by simp, hmid, hev, ?_, ?_⟩
        · intro a ha
          rcases List.mem_append.1 ha with h | h
          · exact htail a h
          · obtain rfl := List.mem_singleton.1 h
            rfl
        · intro a ha
          rcases List.mem_append.1 ha with h | h
          · exact hT a h
          · obtain rfl := List.mem_singleton.1 h
            rfl

theorem recordOf_of_diskFailure (ev : Event) (e : Error) (h : diskFailure ev = some e) :
    recordOf ev = none := by
  cases ev with
  | setAt k d m t res =>
    cases res with
    | none => simp [diskFailure] at h
    | some e1 => rfl
  | _ => rfl

/-- C8: `CommitToDisk` and `CommitToMemory` report the first error and stop.
In the events of a call of `CommitToDisk`, a list fetch or a write that fails
is the last event, no event before it fails, the call returns its error, and
the records written before it stay written; a call that returns an error ends
with the event that failed with it. In the events of a call of
`CommitToMemory`, a list fetch that fails or a call of `CommitMutation` that
answers an error other than `ErrRetry` makes the call return this error: no
event before it fails, and after it there is no list fetch, no call of a list
and no delay; a call that returns an error has the event that failed with
it. -/
theorem commit_first_error (x : Ext) (w : World) (ord : List Bytes → List Bytes) (tx : Txn)
    (commitTs fuel : Nat) (tr0 tr1 : List Event) (ev : Event) (e : Error) :
    ((CommitToDisk x w ord tx commitTs).2.2 = tr0 ++ ev :: tr1 → diskFailure ev = some e →
      (CommitToDisk x w ord tx commitTs).1 = some e ∧ tr1 = [] ∧
        (∀ a ∈ tr0, diskFailure a = none) ∧
        written (CommitToDisk x w ord tx commitTs).2.2 = written tr0) ∧
    ((CommitToDisk x w ord tx commitTs).1 = some e →
      ∃ t0 ev0, (CommitToDisk x w ord tx commitTs).2.2 = t0 ++ [ev0] ∧
        diskFailure ev0 = some e) ∧
    ((CommitToMemory w ord fuel tx commitTs).2.2 = tr0 ++ ev :: tr1 → memFailure ev = some e →
      (CommitToMemory w ord fuel tx commitTs).1 = .returned (some e) ∧
        (∀ a ∈ tr1, isWork a = false) ∧ (∀ a ∈ tr0, memFailure a = none)) ∧
    ((CommitToMemory w ord fuel tx commitTs).1 = .returned (some e) →
      ∃ t0 ev0 t1, (CommitToMemory w ord fuel tx commitTs).2.2 = t0 ++ ev0 :: t1 ∧
        memFailure ev0 = some e ∧ ∀ a ∈ t1, isWork a = false) := by
  have hd := CommitToDisk_shape x w ord tx commitTs
  have hm := CommitToMemory_shape w ord fuel tx commitTs
  refine ⟨?_, ?_, ?_, ?_⟩
  · intro hsplit hev
    obtain ⟨h1, h2, h3⟩ := FailShape.first _ _ _ _ tr0 tr1 ev e hd hsplit hev
    refine ⟨h1, h2, h3, ?_⟩
    rw [hsplit, h2]
    simp [written, List.filterMap_append, recordOf_of_diskFailure ev e hev]
  · intro hres
    rw [hres] at hd
    obtain ⟨mid, ev0, tail, h1, -, h3, -, h5⟩ := hd
    subst h5
    exact ⟨mid, ev0, h1, h3⟩
  · intro hsplit hev
    obtain ⟨h1, h2, h3⟩ := FailShape.first _ _ _ _ tr0 tr1 ev e hm hsplit hev
    refine ⟨?_, h2, h3⟩
    cases ho : (CommitToMemory w ord fuel tx commitTs).1 with
    | running => rw [ho] at h1; exact Option.noConfusion h1
    | returned r =>
      rw [ho] at h1
      exact congrArg Outcome.returned h1
  · intro hres
    rw [hres] at hm
    obtain ⟨mid, ev0, tail, h1, -, h3, -, h5⟩ := hm
    exact ⟨mid, ev0, tail, h1, h3, h5⟩

/-- C8 on two keys when the list fetch of the second fails with error 9:
`CommitToDisk` returns error 9 after the record of the first key is written,
and `CommitToMemory` returns error 9. -/
theorem commit_first_error_witness :
    (CommitToDisk sampleExt failingWorld id twoKeyTxn 10).1 = some (Error.other 9) ∧
    written (CommitToDisk sampleExt failingWorld id twoKeyTxn 10).2.2
      = [(k1, [1, 2, 3], 4, 10)] ∧
    (CommitToMemory failingWorld id 2 twoKeyTxn 10).1 = .returned (some (Error.other 9)) :=
  ⟨((commit_first_error sampleExt failingWorld id twoKeyTxn 10 2
      [Event.lock, Event.unlock, Event.get k1 (.ok 7), Event.getMutation 7 5 (some [1, 2, 3]),
        Event.setAt k1 [1, 2, 3] 4 10 none] []
      (Event.get k2 (.err (Error.other 9))) (Error.other 9)).1 rfl rfl).1,
    rfl,
    ((commit_first_error sampleExt failingWorld id twoKeyTxn 10 2
      [Event.lock, Event.get k1 (.ok 7), Event.commitMutation 7 5 10 none] [Event.unlock]
      (Event.get k2 (.err (Error.other 9))) (Error.other 9)).2.2.1 rfl rfl).1⟩

/-! ## C9: `ErrRetry` and the caller of `CommitToMemory` -/

/-- C9, as stated, fails when a list fetch fails with `ErrRetry`: the error
goes to the caller of `CommitToMemory` as it is. -/
theorem CommitToMemory_retry_counterexample :
    CommitToMemory retryFetchWorld id 1 sampleTxn 10
      = (.returned (some Error.ErrRetry), sampleTxn,
          [Event.lock, Event.get k1 (.err Error.ErrRetry), Event.unlock]) := by
  decide

theorem memLoop_retry_source (w : World) (tx : Txn) (commitTs : Nat) (fuel : Nat)
    (keys : List Bytes) (tr : List Event)
    (h : (memLoop w tx commitTs fuel keys tr).1 = .returned (some Error.ErrRetry)) :
    ∃ t k, w.Get t k = .err Error.ErrRetry ∧
      Event.get k (.err Error.ErrRetry) ∈ (memLoop w tx commitTs fuel keys tr).2 := by
  induction fuel generalizing keys tr with
  | zero =>
    cases keys with
    | nil => simp [memLoop] at h
    | cons k keys => simp [memLoop] at h
  | succ fuel ih =>
    cases keys with
    | nil => simp [memLoop] at h
    | cons k keys =>
      rw [memLoop] at h ⊢
      cases hg : w.Get tr k with
      | err e =>
        rw [hg] at h
        simp only [Outcome.returned.injEq, Option.some.injEq] at h
        subst h
        exact ⟨tr, k, hg, by simp⟩
      | ok plist =>
        rw [hg] at h
        simp only at h ⊢
        cases hm : w.CommitMutation (tr ++ [Event.get k (.ok plist)]) plist tx.StartTs
            commitTs with
        | none =>
          rw [hm] at h
          exact ih _ _ h
        | some e =>
          rw [hm] at h
          by_cases he : e = Error.ErrRetry
          · simp only [he, if_true] at h ⊢
            exact ih _ _ h
          · simp only [he, if_false, Outcome.returned.injEq, Option.some.injEq] at h

/-- C9 (amended): an answer `ErrRetry` of `CommitMutation` never reaches the
caller of `CommitToMemory`. When the call returns `ErrRetry`, a list fetch
failed with `ErrRetry`; so when no list fetch fails with `ErrRetry`, whatever
`CommitMutation` answers, the error returned is not `ErrRetry`. -/
theorem CommitToMemory_retry_not_surfaced (w : World) (ord : List Bytes → List Bytes)
    (fuel : Nat) (tx : Txn) (commitTs : Nat) (err : Option Error)
    (hret : (CommitToMemory w ord fuel tx commitTs).1 = .returned err) :
    (err = some Error.ErrRetry →
      ∃ t k, w.Get t k = .err Error.ErrRetry ∧
        Event.get k (.err Error.ErrRetry) ∈ (CommitToMemory w ord fuel tx commitTs).2.2) ∧
    ((∀ t k, w.Get t k ≠ .err Error.ErrRetry) → err ≠ some Error.ErrRetry) := by
  have key : err = some Error.ErrRetry →
      ∃ t k, w.Get t k = .err Error.ErrRetry ∧
        Event.get k (.err Error.ErrRetry) ∈ (CommitToMemory w ord fuel tx commitTs).2.2 := by
    intro he
    subst he
    unfold CommitToMemory at hret ⊢
    simp only at hret ⊢
    cases ho : (memLoop w tx commitTs fuel (ord tx.deltas.elems) [Event.lock]).1 with
    | running => rw [ho] at hret; exact Outcome.noConfusion hret
    | returned r =>
      rw [ho] at hret
      simp only [Outcome.returned.injEq] at hret
      subst hret
      obtain ⟨t, k, h1, h2⟩ := memLoop_retry_source w tx commitTs fuel _ _ ho
      exact ⟨t, k, h1, by simp [h2]⟩
  refine ⟨key, fun hget he => ?_⟩
  obtain ⟨t, k, h1, -⟩ := key he
  exact hget t k h1

/-- C9 (amended) in a world where `CommitMutation` answers `ErrRetry` twice:
the call returns, and not with `ErrRetry`. -/
theorem CommitToMemory_retry_not_surfaced_witness :
    (CommitToMemory retryTwiceWorld id 3 sampleTxn 10).1 = .returned none ∧
    (none : Option Error) ≠ some Error.ErrRetry :=
  ⟨rfl,
    (CommitToMemory_retry_not_surfaced retryTwiceWorld id 3 sampleTxn 10 none rfl).2
      (fun _ _ h => Fetch.noConfusion h)⟩

/-! ## C10: `CommitToMemory` under a finite number of `ErrRetry` answers -/

theorem attemptsOn_append (p : Nat) (a b : List Event) :
    attemptsOn p (a ++ b) = attemptsOn p a + attemptsOn p b := by
  simp [attemptsOn, List.countP_append]

theorem delays_append (a b : List Event) : delays (a ++ b) = delays a ++ delays b := by
  simp [delays, List.filterMap_append]

theorem attemptsOn_retryEvents (p : Nat) (k : Bytes) (q s c : Nat) (j : Nat) :
    attemptsOn p (retryEvents k q s c j) = if q = p then j + 1 else 0 := by
  induction j with
  | zero =>
    by_cases h : q = p <;> simp [retryEvents, attemptsOn, List.countP_cons, isAttemptOn, h]
  | succ j ih =>
    rw [retryEvents, attemptsOn_append, ih]
    by_cases h : q = p
    · simp [attemptsOn, List.countP_cons, isAttemptOn, h]
      omega
    · simp [attemptsOn, List.countP_cons, isAttemptOn, h]

theorem delays_retryEvents (k : Bytes) (q s c : Nat) (j : Nat) :
    delays (retryEvents k q s c j) = List.replicate j (5 * Millisecond) := by
  induction j with
  | zero => simp [retryEvents, delays, delayOf]
  | succ j ih =>
    rw [retryEvents, delays_append, ih, List.replicate_succ]
    simp [delays, delayOf]

/-- The inner loop on one key: after `j` more answers `ErrRetry`, each
followed by a delay, and one success, the loop goes on with the next key. -/
theorem memLoop_retry_key (w : World) (tx : Txn) (commitTs : Nat) (k : Bytes)
    (rest : List Bytes) (plist n : Nat)
    (hget : ∀ t, w.Get t k = .ok plist)
    (hcm : ∀ t, w.CommitMutation t plist tx.StartTs commitTs
      = if attemptsOn plist t < n then some Error.ErrRetry else none)
    (j fuel : Nat) (tr : List Event) (hatt : attemptsOn plist tr + j = n) :
    memLoop w tx commitTs (fuel + j + 1) (k :: rest) tr
      = memLoop w tx commitTs fuel rest (tr ++ retryEvents k plist tx.StartTs commitTs j) := by
  induction j generalizing tr with
  | zero =>
    have h0 : attemptsOn plist (tr ++ [Event.get k (.ok plist)]) = n := by
      rw [attemptsOn_append]
      simpa [attemptsOn, isAttemptOn] using hatt
    rw [Nat.add_zero, memLoop]
    simp only [hget, hcm, h0, Nat.lt_irrefl, if_false, retryEvents]
    simp
  | succ j ih =>
    have e0 : attemptsOn plist [Event.get k (.ok plist)] = 0 := rfl
    have e1 : attemptsOn plist
        [Event.commitMutation plist tx.StartTs commitTs (some Error.ErrRetry),
          Event.sleep (5 * Millisecond)] = 1 := by
      simp [attemptsOn, List.countP_cons, isAttemptOn]
    have h0 : attemptsOn plist (tr ++ [Event.get k (.ok plist)]) < n := by
      rw [attemptsOn_append, e0]
      omega
    have h1 : attemptsOn plist (tr ++ [Event.get k (.ok plist)] ++
        [Event.commitMutation plist tx.StartTs commitTs (some Error.ErrRetry),
          Event.sleep (5 * Millisecond)]) + j = n := by
      rw [attemptsOn_append, attemptsOn_append, e0, e1]
      omega
    rw [memLoop]
    simp only [hget, hcm, h0, if_true]
    have h2 := ih _ h1
    rw [show fuel + (j + 1) = fuel + j + 1 from rfl, h2, retryEvents]
    simp

/-- The whole loop when every key needs a finite number of attempts. -/
theorem memLoop_retry_all (w : World) (tx : Txn) (commitTs : Nat) (L : Bytes → Nat)
    (n : Bytes → Nat) (keys : List Bytes) (fuel : Nat) (tr : List Event)
    (hnodup : keys.Nodup)
    (hinj : ∀ a ∈ keys, ∀ b ∈ keys, L a = L b → a = b)
    (hget : ∀ t k, k ∈ keys → w.Get t k = .ok (L k))
    (hcm : ∀ t k, k ∈ keys → w.CommitMutation t (L k) tx.StartTs commitTs
      = if attemptsOn (L k) t < n k then some Error.ErrRetry else none)
    (hfresh : ∀ k ∈ keys, attemptsOn (L k) tr = 0) :
    memLoop w tx commitTs (attemptsNeeded n keys + fuel) keys tr
      = (.returned none, tr ++ memEvents L n tx.StartTs commitTs keys) := by
  induction keys generalizing tr with
  | nil => simp [memLoop, memEvents]
  | cons k keys ih =>
    rw [List.nodup_cons] at hnodup
    have hk : k ∈ k :: keys := List.mem_cons_self _ _
    have hf : attemptsNeeded n (k :: keys) + fuel
        = (attemptsNeeded n keys + fuel) + n k + 1 := by
      simp only [attemptsNeeded]
      omega
    rw [hf, memLoop_retry_key w tx commitTs k keys (L k) (n k) (fun t => hget t k hk)
      (fun t => hcm t k hk) (n k) _ tr (by rw [hfresh k hk]; omega)]
    rw [ih _ hnodup.2
      (fun a ha b hb => hinj a (List.mem_cons_of_mem _ ha) b (List.mem_cons_of_mem _ hb))
      (fun t a ha => hget t a (List.mem_cons_of_mem _ ha))
      (fun t a ha => hcm t a (List.mem_cons_of_mem _ ha))]
    · simp [memEvents]
    · intro a ha
      rw [attemptsOn_append, hfresh a (List.mem_cons_of_mem _ ha), attemptsOn_retryEvents]
      have hne : L k ≠ L a := by
        intro h
        have := hinj k hk a (List.mem_cons_of_mem _ ha) h
        exact hnodup.1 (this ▸ ha)
      simp [hne]

theorem attemptsOn_memEvents_of_not_mem (L : Bytes → Nat) (n : Bytes → Nat) (s c : Nat)
    (keys : List Bytes) (p : Nat) (h : ∀ a ∈ keys, L a ≠ p) :
    attemptsOn p (memEvents L n s c keys) = 0 := by
  induction keys with
  | nil => simp [memEvents, attemptsOn]
  | cons a keys ih =>
    rw [memEvents, attemptsOn_append, attemptsOn_retryEvents,
      ih (fun b hb => h b (List.mem_cons_of_mem _ hb))]
    simp [h a (List.mem_cons_self _ _)]

theorem attemptsOn_memEvents (L : Bytes → Nat) (n : Bytes → Nat) (s c : Nat)
    (keys : List Bytes) (hnodup : keys.Nodup)
    (hinj : ∀ a ∈ keys, ∀ b ∈ keys, L a = L b → a = b) (k : Bytes) (hk : k ∈ keys) :
    attemptsOn (L k) (memEvents L n s c keys) = n k + 1 := by
  induction keys with
  | nil => simp at hk
  | cons a keys ih =>
    rw [List.nodup_cons] at hnodup
    rw [memEvents, attemptsOn_append, attemptsOn_retryEvents]
    by_cases hak : a = k
    · subst hak
      rw [attemptsOn_memEvents_of_not_mem L n s c keys (L a)]
      · simp
      · intro b hb h
        have := hinj b (List.mem_cons_of_mem _ hb) a (List.mem_cons_self _ _) h
        exact hnodup.1 (this ▸ hb)
    · have hk1 : k ∈ keys := by
        rcases List.mem_cons.1 hk with h | h
        · exact absurd h.symm hak
        · exact h
      have hne : L a ≠ L k := fun h =>
        hak (hinj a (List.mem_cons_self _ _) k (List.mem_cons_of_mem _ hk1) h)
      rw [ih hnodup.2
        (fun a ha b hb => hinj a (List.mem_cons_of_mem _ ha) b (List.mem_cons_of_mem _ hb)) hk1]
      simp [hne]

theorem delays_memEvents (L : Bytes → Nat) (n : Bytes → Nat) (s c : Nat) (keys : List Bytes) :
    delays (memEvents L n s c keys) = List.replicate (retriesTotal n keys) (5 * Millisecond) := by
  induction keys with
  | nil => simp [memEvents, delays, retriesTotal]
  | cons a keys ih =>
    rw [memEvents, delays_append, delays_retryEvents, ih, retriesTotal, List.replicate_add]

/-- C10: let every written key `k` have its list `L k` fetched without error,
different keys having different lists, and let `CommitMutation` answer
`ErrRetry` to the first `n k` calls on `L k` and succeed on the next one. Then
`CommitToMemory`, allowed at least the sum of the `n k + 1` iterations of its
inner loop, returns no error; its events are, between `Lock` and `Unlock` and
key after key, `n k` times a list fetch, a call of `CommitMutation` answered
`ErrRetry` and a delay of 5 ms, and then a list fetch and a successful call of
`CommitMutation`; so `CommitMutation` is called `n k + 1` times on the list of
`k`, and the delays are one of 5 ms for each answer `ErrRetry`. -/
theorem CommitToMemory_retries (w : World) (ord : List Bytes → List Bytes) (tx : Txn)
    (commitTs : Nat) (L : Bytes → Nat) (n : Bytes → Nat) (fuel : Nat)
    (hnodup : tx.deltas.elems.Nodup)
    (hord : (ord tx.deltas.elems).Perm tx.deltas.elems)
    (hinj : ∀ a ∈ tx.deltas.elems, ∀ b ∈ tx.deltas.elems, L a = L b → a = b)
    (hget : ∀ t k, k ∈ tx.deltas.elems → w.Get t k = .ok (L k))
    (hcm : ∀ t k, k ∈ tx.deltas.elems → w.CommitMutation t (L k) tx.StartTs commitTs
      = if attemptsOn (L k) t < n k then some Error.ErrRetry else none)
    (hfuel : attemptsNeeded n (ord tx.deltas.elems) ≤ fuel) :
    CommitToMemory w ord fuel tx commitTs
      = (.returned none, tx,
          [Event.lock] ++ memEvents L n tx.StartTs commitTs (ord tx.deltas.elems)
            ++ [Event.unlock]) ∧
    (∀ k ∈ tx.deltas.elems,
      attemptsOn (L k) (CommitToMemory w ord fuel tx commitTs).2.2 = n k + 1) ∧
    delays (CommitToMemory w ord fuel tx commitTs).2.2
      = List.replicate (retriesTotal n (ord tx.deltas.elems)) (5 * Millisecond) := by
  have hmem : ∀ k, k ∈ ord tx.deltas.elems ↔ k ∈ tx.deltas.elems := fun k => hord.mem_iff
  have hnd : (ord tx.deltas.elems).Nodup := hord.nodup_iff.2 hnodup
  have hinj1 : ∀ a ∈ ord tx.deltas.elems, ∀ b ∈ ord tx.deltas.elems, L a = L b → a = b :=
    fun a ha b hb => hinj a ((hmem a).1 ha) b ((hmem b).1 hb)
  have hloop := memLoop_retry_all w tx commitTs L n (ord tx.deltas.elems)
    (fuel - attemptsNeeded n (ord tx.deltas.elems)) [Event.lock] hnd hinj1
    (fun t k hk => hget t k ((hmem k).1 hk)) (fun t k hk => hcm t k ((hmem k).1 hk))
    (fun _ _ => rfl)
  rw [Nat.add_sub_cancel' hfuel] at hloop
  have hrun : CommitToMemory w ord fuel tx commitTs
      = (.returned none, tx,
          [Event.lock] ++ memEvents L n tx.StartTs commitTs (ord tx.deltas.elems)
            ++ [Event.unlock]) := by
    unfold CommitToMemory
    simp only [hloop]
  refine ⟨hrun, ?_, ?_⟩
  · intro k hk
    rw [hrun]
    simp only
    rw [attemptsOn_append, attemptsOn_append,
      attemptsOn_memEvents L n _ _ _ hnd hinj1 k ((hmem k).2 hk)]
    simp [attemptsOn, isAttemptOn]
  · rw [hrun]
    simp only
    rw [delays_append, delays_append, delays_memEvents]
    simp [delays, delayOf]

/-- C10 when `CommitMutation` answers `ErrRetry` twice for `k1`: three
attempts, two delays of 5 ms, and no error. -/
theorem CommitToMemory_retries_witness :
    attemptsNeeded (fun _ => 2) (id sampleTxn.deltas.elems) ≤ 3 ∧
    CommitToMemory retryTwiceWorld id 3 sampleTxn 10
      = (.returned none, sampleTxn,
          [Event.lock,
            Event.get k1 (.ok 7), Event.commitMutation 7 5 10 (some Error.ErrRetry),
            Event.sleep 5000000,
            Event.get k1 (.ok 7), Event.commitMutation 7 5 10 (some Error.ErrRetry),
            Event.sleep 5000000,
            Event.get k1 (.ok 7), Event.commitMutation 7 5 10 none,
            Event.unlock]) :=
  ⟨by decide,
    (CommitToMemory_retries retryTwiceWorld id sampleTxn 10 (fun _ => 7) (fun _ => 2) 3
      (by decide) (List.Perm.refl _)
      (fun a ha b hb _ => by
        have h1 : a = k1 := by simpa [sampleTxn, KeySet.elems] using ha
        have h2 : b = k1 := by simpa [sampleTxn, KeySet.elems] using hb
        rw [h1, h2])
      (fun _ _ _ => rfl) (fun _ _ _ => rfl) (by decide)).1⟩

/-! ## C11, C12 and C19: `AddKeys` -/

theorem mem_insertKey (ks : List Bytes) (k a : Bytes) :
    a ∈ insertKey ks k ↔ a ∈ ks ∨ a = k := by
  unfold insertKey
  by_cases h : k ∈ ks
  · simp only [h, if_true]
    constructor
    · exact Or.inl
    · rintro (h1 | h1)
      · exact h1
      · exact h1 ▸ h
  · simp [h]

theorem insertKey_of_mem (ks : List Bytes) (k : Bytes) (h : k ∈ ks) : insertKey ks k = ks := by
  simp [insertKey, h]

theorem insertKey_nodup (ks : List Bytes) (k : Bytes) (h : ks.Nodup) :
    (insertKey ks k).Nodup := by
  unfold insertKey
  by_cases hk : k ∈ ks
  · simpa [hk] using h
  · simp only [hk, if_false]
    rw [List.nodup_append]
    refine ⟨h, by simp, ?_⟩
    intro a ha hb
    obtain rfl := List.mem_singleton.1 hb
    exact hk ha

/-- The sets `AddKeys` starts from: those of the transaction, or two new empty
sets when one of its maps is nil. -/
theorem AddKeys_sets (t : Txn) (key conflictKey : Bytes) :
    (AddKeys t key conflictKey).deltas
      = some (insertKey (if t.deltas = none ∨ t.conflicts = none then [] else t.deltas.elems)
          key) ∧
    (AddKeys t key conflictKey).conflicts
      = some (if conflictKey.length > 0 then
          insertKey (if t.deltas = none ∨ t.conflicts = none then [] else t.conflicts.elems)
            conflictKey
        else (if t.deltas = none ∨ t.conflicts = none then [] else t.conflicts.elems)) ∧
    (AddKeys t key conflictKey).StartTs = t.StartTs ∧
    (AddKeys t key conflictKey).shouldAbort = t.shouldAbort := by
  unfold AddKeys
  by_cases h : t.deltas = none ∨ t.conflicts = none
  · by_cases hc : conflictKey.length > 0
    · simp [h, hc, KeySet.elems]
    · simp [h, hc, KeySet.elems]
  · have hd : ∃ ds, t.deltas = some ds := by
      cases hds : t.deltas with
      | none => exact absurd (Or.inl hds) h
      | some ds => exact ⟨ds, rfl⟩
    have hcs : ∃ cs, t.conflicts = some cs := by
      cases hcs : t.conflicts with
      | none => exact absurd (Or.inr hcs) h
      | some cs => exact ⟨cs, rfl⟩
    obtain ⟨ds, hds⟩ := hd
    obtain ⟨cs, hcs⟩ := hcs
    by_cases hc : conflictKey.length > 0
    · simp [hds, hcs, hc, KeySet.elems]
    · simp [hds, hcs, hc, KeySet.elems]

theorem Txn.ext_fields (a b : Txn) (h1 : a.StartTs = b.StartTs)
    (h2 : a.shouldAbort = b.shouldAbort) (h3 : a.deltas = b.deltas)
    (h4 : a.conflicts = b.conflicts) : a = b := by
  cases a
  cases b
  simp only [Txn.mk.injEq]
  exact ⟨h1, h2, h3, h4⟩

/-- C11: `AddKeys` is idempotent. For every transaction, key and conflict key,
calling `AddKeys(key, conflictKey)` twice leaves the transaction that one
call leaves: the same written keys and the same conflict keys, so the same
numbers of them. -/
theorem AddKeys_idempotent (t : Txn) (key conflictKey : Bytes) :
    AddKeys (AddKeys t key conflictKey) key conflictKey = AddKeys t key conflictKey ∧
    (AddKeys (AddKeys t key conflictKey) key conflictKey).deltas.elems.length
      = (AddKeys t key conflictKey).deltas.elems.length ∧
    (AddKeys (AddKeys t key conflictKey) key conflictKey).conflicts.elems.length
      = (AddKeys t key conflictKey).conflicts.elems.length := by
  have h : AddKeys (AddKeys t key conflictKey) key conflictKey = AddKeys t key conflictKey := by
    obtain ⟨h1, h2, h3, h4⟩ := AddKeys_sets t key conflictKey
    obtain ⟨g1, g2, g3, g4⟩ := AddKeys_sets (AddKeys t key conflictKey) key conflictKey
    refine Txn.ext_fields _ _ g3 g4 ?_ ?_
    · rw [g1, h1]
      simp only [reduceCtorEq, or_self, if_false, KeySet.elems, Option.getD_some]
      rw [h2]
      simp only [reduceCtorEq, or_self, if_false]
      rw [insertKey_of_mem _ _ ((mem_insertKey _ _ _).2 (Or.inr rfl))]
    · rw [g2, h1, h2]
      simp only [reduceCtorEq, or_self, if_false, KeySet.elems, Option.getD_some]
      by_cases hc : conflictKey.length > 0
      · simp only [hc, if_true]
        rw [insertKey_of_mem _ _ ((mem_insertKey _ _ _).2 (Or.inr rfl))]
      · simp only [hc, if_false]
  exact ⟨h, by rw [h], by rw [h]⟩

theorem AddKeys_keeps_nonempty (t : Txn) (key conflictKey : Bytes)
    (h : ([] : Bytes) ∉ t.conflicts.elems) :
    ([] : Bytes) ∉ (AddKeys t key conflictKey).conflicts.elems := by
  rw [(AddKeys_sets t key conflictKey).2.1]
  simp only [KeySet.elems, Option.getD_some]
  have hbase : ([] : Bytes) ∉
      (if t.deltas = none ∨ t.conflicts = none then [] else t.conflicts.elems) := by
    by_cases h1 : t.deltas = none ∨ t.conflicts = none
    · simp [h1]
    · simpa [h1] using h
  by_cases hc : conflictKey.length > 0
  · simp only [hc, if_true, mem_insertKey]
    rintro (h1 | h1)
    · exact hbase h1
    · rw [← h1] at hc
      simp at hc
  · simpa [hc] using hbase

theorem addAll_keeps_nonempty (calls : List (Bytes × Bytes)) (t : Txn)
    (h : ([] : Bytes) ∉ t.conflicts.elems) :
    ([] : Bytes) ∉ (addAll t calls).conflicts.elems := by
  induction calls generalizing t with
  | nil => exact h
  | cons p calls ih =>
    simp only [addAll, List.foldl_cons]
    exact ih (AddKeys t p.1 p.2) (AddKeys_keeps_nonempty t p.1 p.2 h)

/-- C12: after `AddKeys(key, conflictKey)` the key is a written key, and the
conflict key is a conflict key when it is not empty. With an empty conflict
key the call records no conflict key: every conflict key after the call was
one before. The empty string is never a conflict key of a transaction built
by calls of `AddKeys` from a transaction that did not have it, in particular
from a new transaction. -/
theorem AddKeys_records (t : Txn) (key conflictKey : Bytes) :
    key ∈ (AddKeys t key conflictKey).deltas.elems ∧
    (conflictKey.length > 0 → conflictKey ∈ (AddKeys t key conflictKey).conflicts.elems) ∧
    (conflictKey = [] →
      ∀ a ∈ (AddKeys t key conflictKey).conflicts.elems, a ∈ t.conflicts.elems) ∧
    (∀ calls, ([] : Bytes) ∉ t.conflicts.elems →
      ([] : Bytes) ∉ (addAll t calls).conflicts.elems) ∧
    (∀ calls startTs, ([] : Bytes) ∉ (addAll (Txn.fresh startTs) calls).conflicts.elems) := by
  obtain ⟨h1, h2, -, -⟩ := AddKeys_sets t key conflictKey
  refine ⟨?_, ?_, ?_, fun calls h => addAll_keeps_nonempty calls t h,
    fun calls startTs => addAll_keeps_nonempty calls _ (by simp [Txn.fresh, KeySet.elems])⟩
  · rw [h1]
    simp only [KeySet.elems, Option.getD_some]
    exact (mem_insertKey _ _ _).2 (Or.inr rfl)
  · intro hc
    rw [h2]
    simp only [hc, if_true, KeySet.elems, Option.getD_some]
    exact (mem_insertKey _ _ _).2 (Or.inr rfl)
  · intro hc a ha
    rw [h2] at ha
    subst hc
    by_cases h : t.deltas = none ∨ t.conflicts = none
    · simp [h, KeySet.elems] at ha
    · simpa [h, KeySet.elems] using ha

/-- C12 on a new transaction: after `AddKeys("k1", "k2")` the key `"k1"` is
written and `"k2"` is a conflict key; after `AddKeys("k1", "")` there is no
conflict key. -/
theorem AddKeys_records_witness :
    k2.length > 0 ∧
    k2 ∈ (AddKeys (Txn.fresh 5) k1 k2).conflicts.elems ∧
    (∀ a ∈ (AddKeys (Txn.fresh 5) k1 []).conflicts.elems, a ∈ (Txn.fresh 5).conflicts.elems) ∧
    ([] : Bytes) ∉ (addAll (Txn.fresh 5) [(k1, []), (k2, k1)]).conflicts.elems :=
  ⟨by decide,
    (AddKeys_records (Txn.fresh 5) k1 k2).2.1 (by decide),
    (AddKeys_records (Txn.fresh 5) k1 []).2.2.1 rfl,
    (AddKeys_records (Txn.fresh 5) k1 k2).2.2.2.1 [(k1, []), (k2, k1)]
      (by simp [Txn.fresh, KeySet.elems])⟩

/-- C19, as stated, fails in a state where exactly one map is nil: with
written keys `{"k1"}` and a nil conflict map, `AddKeys("k2", "")` makes both
maps anew, and `"k1"` is no longer a written key. -/
theorem AddKeys_grows_counterexample :
    halfTxn.deltas = some [k1] ∧ halfTxn.conflicts = none ∧
    k1 ∈ halfTxn.deltas.elems ∧
    (AddKeys halfTxn k2 []).deltas = some [k2] ∧
    k1 ∉ (AddKeys halfTxn k2 []).deltas.elems := by
  decide

/-- C19 (amended): in a state where both maps are nil or both are not nil,
after `AddKeys(key, conflictKey)` the written keys are those before with
`key` added, the conflict keys are those before with `conflictKey` added when
it is not empty and are the same when it is empty, and no key and no conflict
key recorded before is removed. -/
theorem AddKeys_grows (t : Txn) (key conflictKey : Bytes)
    (h : (t.deltas = none ∧ t.conflicts = none) ∨ (t.deltas ≠ none ∧ t.conflicts ≠ none)) :
    (AddKeys t key conflictKey).deltas.elems = insertKey t.deltas.elems key ∧
    (∀ a, a ∈ (AddKeys t key conflictKey).deltas.elems ↔ a ∈ t.deltas.elems ∨ a = key) ∧
    (conflictKey.length > 0 →
      (AddKeys t key conflictKey).conflicts.elems = insertKey t.conflicts.elems conflictKey ∧
      ∀ a, a ∈ (AddKeys t key conflictKey).conflicts.elems ↔
        a ∈ t.conflicts.elems ∨ a = conflictKey) ∧
    (conflictKey.length = 0 →
      (AddKeys t key conflictKey).conflicts.elems = t.conflicts.elems) ∧
    (∀ a ∈ t.deltas.elems, a ∈ (AddKeys t key conflictKey).deltas.elems) ∧
    (∀ a ∈ t.conflicts.elems, a ∈ (AddKeys t key conflictKey).conflicts.elems) := by
  obtain ⟨h1, h2, -, -⟩ := AddKeys_sets t key conflictKey
  have hd : (if t.deltas = none ∨ t.conflicts = none then [] else t.deltas.elems)
      = t.deltas.elems := by
    rcases h with ⟨hn, -⟩ | ⟨hn1, hn2⟩
    · simp [hn, KeySet.elems]
    · simp [hn1, hn2]
  have hc : (if t.deltas = none ∨ t.conflicts = none then [] else t.conflicts.elems)
      = t.conflicts.elems := by
    rcases h with ⟨-, hn⟩ | ⟨hn1, hn2⟩
    · simp [hn, KeySet.elems]
    · simp [hn1, hn2]
  rw [hd] at h1
  rw [hc] at h2
  have e1 : (AddKeys t key conflictKey).deltas.elems = insertKey t.deltas.elems key := by
    rw [h1]; rfl
  have e2 : conflictKey.length > 0 →
      (AddKeys t key conflictKey).conflicts.elems = insertKey t.conflicts.elems conflictKey := by
    intro hl
    rw [h2]
    simp [hl, KeySet.elems]
  have e3 : conflictKey.length = 0 →
      (AddKeys t key conflictKey).conflicts.elems = t.conflicts.elems := by
    intro hl
    rw [h2]
    simp [hl, KeySet.elems]
  refine ⟨e1, fun a => by rw [e1, mem_insertKey], fun hl => ⟨e2 hl, fun a => by
    rw [e2 hl, mem_insertKey]⟩, e3, fun a ha => by rw [e1, mem_insertKey]; exact Or.inl ha, ?_⟩
  intro a ha
  by_cases hl : conflictKey.length > 0
  · rw [e2 hl, mem_insertKey]
    exact Or.inl ha
  · rw [e3 (by omega)]
    exact ha

/-- C19 (amended) on a transaction with both maps set: `AddKeys("k2", "k2")`
keeps `"k1"` and adds `"k2"` to both sets. -/
theorem AddKeys_grows_witness :
    (sampleTxn.deltas ≠ none ∧ sampleTxn.conflicts ≠ none) ∧
    (AddKeys sampleTxn k2 k2).deltas.elems = [k1, k2] ∧
    (AddKeys sampleTxn k2 k2).deltas.elems = insertKey sampleTxn.deltas.elems k2 ∧
    (∀ a ∈ sampleTxn.deltas.elems, a ∈ (AddKeys sampleTxn k2 k2).deltas.elems) :=
  ⟨by decide, by decide,
    (AddKeys_grows sampleTxn k2 k2 (Or.inr (by decide))).1,
    (AddKeys_grows sampleTxn k2 k2 (Or.inr (by decide))).2.2.2.2.1⟩

/-! ## C13 and C14: `Fill` -/

theorem fillKeys_eq (x : Ext) (l keys : List Bytes) :
    fillKeys x l keys = appendNew (l.map (fun k => formatUint36 (x.Fingerprint64 k))) keys := by
  induction l generalizing keys with
  | nil => rfl
  | cons a l ih =>
    simp only [fillKeys, HasString, List.map_cons, appendNew]
    by_cases h : keys.contains (formatUint36 (x.Fingerprint64 a)) = true
    · simp only [h, Bool.not_true, Bool.false_eq_true, if_false, if_true]
      exact ih keys
    · simp only [Bool.not_eq_true] at h
      simp only [h, Bool.not_false, if_true, Bool.false_eq_true, if_false]
      exact ih _

theorem fillPreds_eq (x : Ext) (l preds : List Bytes) :
    fillPreds x l preds = appendNew (l.map x.ParseAttr) preds := by
  induction l generalizing preds with
  | nil => rfl
  | cons a l ih =>
    simp only [fillPreds, HasString, List.map_cons, appendNew]
    by_cases h : preds.contains (x.ParseAttr a) = true
    · simp only [h, Bool.not_true, Bool.false_eq_true, if_false, if_true]
      exact ih preds
    · simp only [Bool.not_eq_true] at h
      simp only [h, Bool.not_false, if_true, Bool.false_eq_true, if_false]
      exact ih _

theorem appendNew_nodup (news acc : List Bytes) (h : acc.Nodup) : (appendNew news acc).Nodup := by
  induction news generalizing acc with
  | nil => exact h
  | cons a news ih =>
    simp only [appendNew]
    by_cases ha : acc.contains a = true
    · simp only [ha, if_true]
      exact ih acc h
    · simp only [ha, Bool.false_eq_true, if_false]
      apply ih
      rw [List.nodup_append]
      refine ⟨h, by simp, ?_⟩
      intro b hb hb1
      obtain rfl := List.mem_singleton.1 hb1
      exact ha (by simpa using hb)

theorem mem_appendNew (news acc : List Bytes) (b : Bytes) :
    b ∈ appendNew news acc ↔ b ∈ acc ∨ b ∈ news := by
  induction news generalizing acc with
  | nil => simp [appendNew]
  | cons a news ih =>
    simp only [appendNew]
    by_cases ha : acc.contains a = true
    · simp only [ha, if_true]
      rw [ih acc]
      have ha1 : a ∈ acc := by simpa using ha
      constructor
      · rintro (h | h)
        · exact Or.inl h
        · exact Or.inr (List.mem_cons_of_mem _ h)
      · rintro (h | h)
        · exact Or.inl h
        · rcases List.mem_cons.1 h with h1 | h1
          · exact Or.inl (h1 ▸ ha1)
          · exact Or.inr h1
    · simp only [ha, Bool.false_eq_true, if_false]
      rw [ih (acc ++ [a])]
      simp only [List.mem_append, List.mem_singleton, List.mem_cons]
      tauto

/-- C13: when the lists `Keys` and `Preds` of the context hold no duplicate on
entry, they hold none after `Fill`: no fingerprint string twice in `Keys`, no
predicate name twice in `Preds`, for every transaction and for every order
in which the two maps are iterated. -/
theorem Fill_nodup (x : Ext) (ordC ordD : List Bytes → List Bytes) (t : Txn)
    (ctx : TxnContext) (hk : ctx.Keys.Nodup) (hp : ctx.Preds.Nodup) :
    (Fill x ordC ordD t ctx).2.Keys.Nodup ∧ (Fill x ordC ordD t ctx).2.Preds.Nodup := by
  simp only [Fill, fillKeys_eq, fillPreds_eq]
  exact ⟨appendNew_nodup _ _ hk, appendNew_nodup _ _ hp⟩

/-- C13 on two written keys of one predicate and two conflict keys of one
fingerprint, into the empty context: each list gets one entry. -/
theorem Fill_nodup_witness :
    (Fill sampleExt id id dupTxn emptyCtx).2.Keys = [[51]] ∧
    (Fill sampleExt id id dupTxn emptyCtx).2.Preds = [[107]] ∧
    (Fill sampleExt id id dupTxn emptyCtx).2.Keys.Nodup ∧
    (Fill sampleExt id id dupTxn emptyCtx).2.Preds.Nodup :=
  ⟨by decide, by decide,
    (Fill_nodup sampleExt id id dupTxn emptyCtx (by simp [emptyCtx])
      (by simp [emptyCtx])).1,
    (Fill_nodup sampleExt id id dupTxn emptyCtx (by simp [emptyCtx])
      (by simp [emptyCtx])).2⟩

theorem undigit36_digit36 (d : Nat) (h : d < 36) : undigit36 (digit36 d) = d := by
  unfold undigit36 digit36
  by_cases h1 : d < 10
  · simp only [h1, if_true]
    have : 48 + d < 58 := by omega
    simp only [this, if_true]
    omega
  · simp only [h1, if_false]
    have : ¬ (87 + d < 58) := by omega
    simp only [this, if_false]
    omega

theorem value36From_eq (acc : Nat) (digits : Bytes) :
    value36From acc digits = acc * 36 ^ digits.length + value36From 0 digits := by
  induction digits generalizing acc with
  | nil => simp [value36From]
  | cons c digits ih =>
    have h1 := ih (acc * 36 + undigit36 c)
    have h2 := ih (0 * 36 + undigit36 c)
    simp only [value36From, List.foldl_cons, List.length_cons] at h1 h2 ⊢
    rw [h1, h2, Nat.pow_succ]
    ring

theorem value36_formatUint36Aux (fuel n : Nat) (acc : Bytes) (h : n < 36 ^ (fuel + 1)) :
    value36 (formatUint36Aux fuel n acc) = n * 36 ^ acc.length + value36 acc := by
  induction fuel generalizing n acc with
  | zero =>
    have hn : n < 36 := by simpa using h
    simp only [formatUint36Aux, value36, value36From, List.foldl_cons]
    have := value36From_eq (0 * 36 + undigit36 (digit36 (n % 36))) acc
    simp only [value36From] at this
    rw [this, Nat.mod_eq_of_lt hn, undigit36_digit36 n hn]
    simp
  | succ fuel ih =>
    rw [formatUint36Aux]
    by_cases hn : n < 36
    · simp only [hn, if_true, value36, value36From, List.foldl_cons]
      have := value36From_eq (0 * 36 + undigit36 (digit36 n)) acc
      simp only [value36From] at this
      rw [this, undigit36_digit36 n hn]
      simp
    · simp only [hn, if_false]
      have hdiv : n / 36 < 36 ^ (fuel + 1) := by
        rw [Nat.div_lt_iff_lt_mul (by decide)]
        rw [Nat.pow_succ] at h
        exact h
      rw [ih (n / 36) (digit36 (n % 36) :: acc) hdiv]
      simp only [value36, value36From, List.foldl_cons, List.length_cons]
      have := value36From_eq (0 * 36 + undigit36 (digit36 (n % 36))) acc
      simp only [value36From] at this
      rw [this, undigit36_digit36 _ (Nat.mod_lt _ (by decide)), Nat.pow_succ]
      have hdm := Nat.div_add_mod n 36
      have e : n / 36 * (36 ^ acc.length * 36)
          = (36 * (n / 36)) * 36 ^ acc.length := by ring
      rw [e]
      have e2 : (36 * (n / 36)) * 36 ^ acc.length + ((0 * 36 + n % 36) * 36 ^ acc.length
          + List.foldl (fun v c => v * 36 + undigit36 c) 0 acc)
          = (36 * (n / 36) + n % 36) * 36 ^ acc.length
            + List.foldl (fun v c => v * 36 + undigit36 c) 0 acc := by ring
      rw [e2, hdm]

/-- The string `formatUint36` gives is the number in base 36: read back, it is
the 64-bit value that was formatted. -/
theorem value36_formatUint36 (n : Nat) : value36 (formatUint36 n) = n % 2 ^ 64 := by
  unfold formatUint36
  rw [value36_formatUint36Aux 12 (n % 2 ^ 64) [] ?_]
  · simp [value36, value36From]
  · have h1 : n % 2 ^ 64 < 2 ^ 64 := Nat.mod_lt _ (by decide)
    have h2 : (2 : Nat) ^ 64 < 36 ^ (12 + 1) := by norm_num
    exact Nat.lt_trans h1 h2

/-- C14: into a context that is empty on entry, `Fill` puts the `StartTs` of
the transaction, in `Keys` exactly the strings that are the base-36 form of
the 64-bit fingerprint of a conflict key (the form that reads back as the
fingerprint), and in `Preds` exactly the predicate names parsed from the
written keys. With two orders of iteration of the maps the two lists `Keys`
are permutations of each other, and so are the two lists `Preds`. `Fill`
leaves the transaction as it is. -/
theorem Fill_content (x : Ext) (ordC ordD ordC1 ordD1 : List Bytes → List Bytes) (t : Txn)
    (ctx : TxnContext) (hk : ctx.Keys = []) (hp : ctx.Preds = [])
    (hC : (ordC t.conflicts.elems).Perm t.conflicts.elems)
    (hD : (ordD t.deltas.elems).Perm t.deltas.elems)
    (hC1 : (ordC1 t.conflicts.elems).Perm t.conflicts.elems)
    (hD1 : (ordD1 t.deltas.elems).Perm t.deltas.elems) :
    (Fill x ordC ordD t ctx).2.StartTs = t.StartTs ∧
    (∀ s, s ∈ (Fill x ordC ordD t ctx).2.Keys ↔
      ∃ k ∈ t.conflicts.elems, s = formatUint36 (x.Fingerprint64 k)) ∧
    (∀ k, value36 (formatUint36 (x.Fingerprint64 k)) = x.Fingerprint64 k % 2 ^ 64) ∧
    (∀ s, s ∈ (Fill x ordC ordD t ctx).2.Preds ↔ ∃ k ∈ t.deltas.elems, s = x.ParseAttr k) ∧
    (Fill x ordC ordD t ctx).2.Keys.Perm (Fill x ordC1 ordD1 t ctx).2.Keys ∧
    (Fill x ordC ordD t ctx).2.Preds.Perm (Fill x ordC1 ordD1 t ctx).2.Preds ∧
    (Fill x ordC ordD t ctx).1 = t ∧
    (Fill x ordC ordD t ctx).1.deltas = t.deltas ∧
    (Fill x ordC ordD t ctx).1.conflicts = t.conflicts := by
  have keysOf : ∀ ord : List Bytes → List Bytes, (ord t.conflicts.elems).Perm t.conflicts.elems →
      ∀ s, s ∈ (Fill x ord ordD t ctx).2.Keys ↔
        ∃ k ∈ t.conflicts.elems, s = formatUint36 (x.Fingerprint64 k) := by
    intro ord hord s
    simp only [Fill, fillKeys_eq, hk, mem_appendNew, List.not_mem_nil, false_or, List.mem_map]
    constructor
    · rintro ⟨k, hk1, rfl⟩
      exact ⟨k, hord.mem_iff.1 hk1, rfl⟩
    · rintro ⟨k, hk1, rfl⟩
      exact ⟨k, hord.mem_iff.2 hk1, rfl⟩
  have predsOf : ∀ ord : List Bytes → List Bytes, (ord t.deltas.elems).Perm t.deltas.elems →
      ∀ s, s ∈ (Fill x ordC ord t ctx).2.Preds ↔ ∃ k ∈ t.deltas.elems, s = x.ParseAttr k := by
    intro ord hord s
    simp only [Fill, fillPreds_eq, hp, mem_appendNew, List.not_mem_nil, false_or, List.mem_map]
    constructor
    · rintro ⟨k, hk1, rfl⟩
      exact ⟨k, hord.mem_iff.1 hk1, rfl⟩
    · rintro ⟨k, hk1, rfl⟩
      exact ⟨k, hord.mem_iff.2 hk1, rfl⟩
  have hnil : ([] : List Bytes).Nodup := List.nodup_nil
  have keysNodup : ∀ oc od : List Bytes → List Bytes, (Fill x oc od t ctx).2.Keys.Nodup := by
    intro oc od
    simp only [Fill, fillKeys_eq]
    exact appendNew_nodup _ _ (hk ▸ hnil)
  have predsNodup : ∀ oc od : List Bytes → List Bytes, (Fill x oc od t ctx).2.Preds.Nodup := by
    intro oc od
    simp only [Fill, fillPreds_eq]
    exact appendNew_nodup _ _ (hp ▸ hnil)
  refine ⟨rfl, keysOf ordC hC, fun k => value36_formatUint36 _, predsOf ordD hD, ?_, ?_,
    rfl, rfl, rfl⟩
  · rw [List.perm_ext_iff_of_nodup (keysNodup ordC ordD) (keysNodup ordC1 ordD1)]
    intro s
    have h1 := keysOf ordC hC s
    have h2 := keysOf ordC1 hC1 s
    simp only [Fill] at h1 h2 ⊢
    rw [h1, h2]
  · rw [List.perm_ext_iff_of_nodup (predsNodup ordC ordD) (predsNodup ordC1 ordD1)]
    intro s
    have h1 := predsOf ordD hD s
    have h2 := predsOf ordD1 hD1 s
    simp only [Fill] at h1 h2 ⊢
    rw [h1, h2]

/-- C14 on two orders of iteration, the stored order and its reverse: the
`StartTs` is that of the transaction and the lists are permutations of each
other. -/
theorem Fill_content_witness :
    (Fill sampleExt id id twoKeyTxn emptyCtx).2.StartTs = 5 ∧
    (Fill sampleExt id id twoKeyTxn emptyCtx).2.Preds = [[107]] ∧
    (Fill sampleExt id id twoKeyTxn emptyCtx).2.Keys.Perm
      (Fill sampleExt List.reverse List.reverse twoKeyTxn emptyCtx).2.Keys ∧
    (Fill sampleExt id id twoKeyTxn emptyCtx).1 = twoKeyTxn :=
  ⟨rfl, by decide,
    (Fill_content sampleExt id id List.reverse List.reverse twoKeyTxn emptyCtx rfl rfl
      (List.Perm.refl _) (List.Perm.refl _) (List.reverse_perm _) (List.reverse_perm _)).2.2.2.2.1,
    (Fill_content sampleExt id id List.reverse List.reverse twoKeyTxn emptyCtx rfl rfl
      (List.Perm.refl _) (List.Perm.refl _) (List.reverse_perm _)
      (List.reverse_perm _)).2.2.2.2.2.2.1⟩

/-! ## C15: the abort flag -/

/-- C15: `ShouldAbort` is false on the nil transaction and on a transaction
whose flag is still 0, as it is when `SetAbort` was never called on it: a new
transaction, also after calls of `AddKeys`, `Fill`, `CommitToDisk` and
`CommitToMemory`, which leave the flag as it is. `ShouldAbort` is true after
`SetAbort`. `SetAbort` twice is `SetAbort` once, and `SetAbort` changes
nothing of the transaction but the flag. -/
theorem abort_flag (x : Ext) (w : World) (ord ordD : List Bytes → List Bytes) (t : Txn)
    (calls : List (Bytes × Bytes)) (startTs commitTs fuel : Nat) (ctx : TxnContext) :
    ShouldAbort none = false ∧
    (t.shouldAbort = 0 → ShouldAbort (some t) = false) ∧
    ShouldAbort (some (Txn.fresh startTs)) = false ∧
    ShouldAbort (some (addAll (Txn.fresh startTs) calls)) = false ∧
    (Fill x ord ordD t ctx).1.shouldAbort = t.shouldAbort ∧
    (CommitToDisk x w ord t commitTs).2.1.shouldAbort = t.shouldAbort ∧
    (CommitToMemory w ord fuel t commitTs).2.1.shouldAbort = t.shouldAbort ∧
    ShouldAbort (some (SetAbort t)) = true ∧
    SetAbort (SetAbort t) = SetAbort t ∧
    (SetAbort t).StartTs = t.StartTs ∧ (SetAbort t).deltas = t.deltas ∧
    (SetAbort t).conflicts = t.conflicts := by
  have hadd : ∀ (cs : List (Bytes × Bytes)) (u : Txn),
      (addAll u cs).shouldAbort = u.shouldAbort := by
    intro cs
    induction cs with
    | nil => intro u; rfl
    | cons p cs ih =>
      intro u
      simp only [addAll, List.foldl_cons]
      exact (ih (AddKeys u p.1 p.2)).trans (AddKeys_sets u p.1 p.2).2.2.2
  refine ⟨rfl, ?_, rfl, ?_, rfl, ?_, ?_, rfl, rfl, rfl, rfl, rfl⟩
  · intro h
    simp [ShouldAbort, h]
  · have h0 : (addAll (Txn.fresh startTs) calls).shouldAbort = 0 :=
      hadd calls (Txn.fresh startTs)
    simp [ShouldAbort, h0]
  · unfold CommitToDisk
    by_cases hc : commitTs = 0 <;> simp [hc]
  · unfold CommitToMemory
    simp only
    cases (memLoop w t commitTs fuel (ord t.deltas.elems) [Event.lock]).1 <;> rfl

/-- C15 on a transaction that wrote a key: no abort before `SetAbort`, abort
after it. -/
theorem abort_flag_witness :
    sampleTxn.shouldAbort = 0 ∧ ShouldAbort (some sampleTxn) = false ∧
    ShouldAbort (some (SetAbort sampleTxn)) = true :=
  ⟨rfl,
    (abort_flag sampleExt sampleWorld id id sampleTxn [] 5 10 1 emptyCtx).2.1 rfl,
    (abort_flag sampleExt sampleWorld id id sampleTxn [] 5 10 1 emptyCtx).2.2.2.2.2.2.2.1⟩

/-! ## C16: the lock of the transaction and the outside calls -/

/-- C16, as stated, fails for `CommitToMemory`: on a transaction that wrote one
key, the list fetch and the call of `CommitMutation` happen between `Lock` and
the deferred `Unlock`. -/
theorem lock_discipline_counterexample :
    (CommitToMemory sampleWorld id 1 sampleTxn 10).2.2
      = [Event.lock, Event.get k1 (.ok 7), Event.commitMutation 7 5 10 none, Event.unlock] ∧
    lockedCall false (CommitToMemory sampleWorld id 1 sampleTxn 10).2.2 = true := by
  decide

theorem lockedCall_of_no_lock (evs : List Event) (h : ∀ a ∈ evs, a ≠ Event.lock) :
    lockedCall false evs = false := by
  induction evs with
  | nil => rfl
  | cons a evs ih =>
    have ih1 := ih (fun b hb => h b (List.mem_cons_of_mem _ hb))
    have ha := h a (List.mem_cons_self _ _)
    cases a with
    | lock => exact absurd rfl ha
    | unlock => simpa [lockedCall] using ih1
    | get k r => simpa [lockedCall] using ih1
    | getMutation p s r => simpa [lockedCall] using ih1
    | setAt k d m ts r => simpa [lockedCall] using ih1
    | commitMutation p s c r => simpa [lockedCall] using ih1
    | sleep d => simpa [lockedCall] using ih1
    | warning e => simpa [lockedCall] using ih1

theorem diskLoop_events (x : Ext) (w : World) (tx : Txn) (commitTs : Nat) (keys : List Bytes)
    (tr : List Event) :
    ∃ evs, (diskLoop x w tx commitTs keys tr).2 = tr ++ evs ∧
      ∀ a ∈ evs, isStorageCall a = true := by
  induction keys generalizing tr with
  | nil => exact ⟨[], by simp [diskLoop], by simp⟩
  | cons k keys ih =>
    rw [diskLoop]
    cases hg : w.Get tr k with
    | err e => exact ⟨[Event.get k (.err e)], rfl, by simp [isStorageCall]⟩
    | ok plist =>
      simp only
      cases hm : w.GetMutation (tr ++ [Event.get k (.ok plist)]) plist tx.StartTs with
      | none =>
        obtain ⟨evs, h1, h2⟩ := ih (tr ++ [Event.get k (.ok plist)] ++
          [Event.getMutation plist tx.StartTs none])
        refine ⟨[Event.get k (.ok plist), Event.getMutation plist tx.StartTs none] ++ evs,
          by simp only [h1]; simp, ?_⟩
        intro a ha
        simp only [List.cons_append, List.nil_append, List.mem_cons] at ha
        rcases ha with rfl | rfl | ha
        · rfl
        · rfl
        · exact h2 a ha
      | some data =>
        simp only
        cases hs : w.SetAt (tr ++ [Event.get k (.ok plist)] ++
            [Event.getMutation plist tx.StartTs (some data)]) k data x.BitDeltaPosting
            commitTs with
        | some e =>
          refine ⟨[Event.get k (.ok plist), Event.getMutation plist tx.StartTs (some data),
            Event.setAt k data x.BitDeltaPosting commitTs (some e)], by simp, ?_⟩
          intro a ha
          simp only [List.mem_cons, List.mem_singleton, List.not_mem_nil, or_false] at ha
          rcases ha with rfl | rfl | rfl <;> rfl
        | none =>
          obtain ⟨evs, h1, h2⟩ := ih (tr ++ [Event.get k (.ok plist)] ++
            [Event.getMutation plist tx.StartTs (some data)] ++
            [Event.setAt k data x.BitDeltaPosting commitTs none])
          refine ⟨[Event.get k (.ok plist), Event.getMutation plist tx.StartTs (some data),
            Event.setAt k data x.BitDeltaPosting commitTs none] ++ evs,
            by simp only [h1]; simp, ?_⟩
          intro a ha
          simp only [List.cons_append, List.nil_append, List.mem_cons] at ha
          rcases ha with rfl | rfl | rfl | ha
          · rfl
          · rfl
          · rfl
          · exact h2 a ha

theorem memLoop_events (w : World) (tx : Txn) (commitTs : Nat) (fuel : Nat) (keys : List Bytes)
    (tr : List Event) :
    ∃ evs, (memLoop w tx commitTs fuel keys tr).2 = tr ++ evs ∧
      ∀ a ∈ evs, a ≠ Event.lock ∧ a ≠ Event.unlock := by
  induction fuel generalizing keys tr with
  | zero =>
    cases keys with
    | nil => exact ⟨[], by simp [memLoop], by simp⟩
    | cons k keys => exact ⟨[], by simp [memLoop], by simp⟩
  | succ fuel ih =>
    cases keys with
    | nil => exact ⟨[], by simp [memLoop], by simp⟩
    | cons k keys =>
      rw [memLoop]
      cases hg : w.Get tr k with
      | err e => exact ⟨[Event.get k (.err e)], rfl, by simp⟩
      | ok plist =>
        simp only
        cases hm : w.CommitMutation (tr ++ [Event.get k (.ok plist)]) plist tx.StartTs
            commitTs with
        | none =>
          obtain ⟨evs, h1, h2⟩ := ih keys (tr ++ [Event.get k (.ok plist)] ++
            [Event.commitMutation plist tx.StartTs commitTs none])
          refine ⟨[Event.get k (.ok plist),
            Event.commitMutation plist tx.StartTs commitTs none] ++ evs,
            by simp only [h1]; simp, ?_⟩
          intro a ha
          simp only [List.cons_append, List.nil_append, List.mem_cons] at ha
          rcases ha with rfl | rfl | ha
          · simp
          · simp
          · exact h2 a ha
        | some e =>
          simp only
          by_cases he : e = Error.ErrRetry
          · obtain ⟨evs, h1, h2⟩ := ih (k :: keys) (tr ++ [Event.get k (.ok plist)] ++
              [Event.commitMutation plist tx.StartTs commitTs (some e),
                Event.sleep (5 * Millisecond)])
            simp only [he, if_true] at h1 ⊢
            refine ⟨[Event.get k (.ok plist),
              Event.commitMutation plist tx.StartTs commitTs (some Error.ErrRetry),
              Event.sleep (5 * Millisecond)] ++ evs, by simp only [h1]; simp, ?_⟩
            intro a ha
            simp only [List.cons_append, List.nil_append, List.mem_cons] at ha
            rcases ha with rfl | rfl | rfl | ha
            · simp
            · simp
            · simp
            · exact h2 a ha
          · simp only [he, if_false]
            refine ⟨[Event.get k (.ok plist),
              Event.commitMutation plist tx.StartTs commitTs (some e), Event.warning e],
              by simp, ?_⟩
            intro a ha
            simp only [List.mem_cons, List.mem_singleton, List.not_mem_nil, or_false] at ha
            rcases ha with rfl | rfl | rfl <;> simp

/-- C16 (amended): in `AddKeys`, `Fill` and `CommitToDisk` no list fetch, no
call of `GetMutation` or `CommitMutation` and no write happens between an
acquisition of the lock of the transaction and its release. `CommitToMemory`
takes the lock first and releases it when it returns: all its list fetches,
calls of `CommitMutation` and delays happen while the lock is held, and it
neither releases nor takes the lock in between. -/
theorem lock_discipline (x : Ext) (w : World) (ord : List Bytes → List Bytes) (tx : Txn)
    (commitTs fuel : Nat) :
    lockedCall false AddKeysEvents = false ∧
    lockedCall false FillEvents = false ∧
    lockedCall false (CommitToDisk x w ord tx commitTs).2.2 = false ∧
    (∀ e, (CommitToMemory w ord fuel tx commitTs).1 = .returned e →
      ∃ evs, (CommitToMemory w ord fuel tx commitTs).2.2 = Event.lock :: evs ++ [Event.unlock] ∧
        ∀ a ∈ evs, a ≠ Event.lock ∧ a ≠ Event.unlock) ∧
    ((CommitToMemory w ord fuel tx commitTs).1 = .running →
      ∃ evs, (CommitToMemory w ord fuel tx commitTs).2.2 = Event.lock :: evs ∧
        ∀ a ∈ evs, a ≠ Event.lock ∧ a ≠ Event.unlock) := by
  obtain ⟨evs, h1, h2⟩ := memLoop_events w tx commitTs fuel (ord tx.deltas.elems) [Event.lock]
  refine ⟨rfl, rfl, ?_, ?_, ?_⟩
  · unfold CommitToDisk
    by_cases hc : commitTs = 0
    · simp [hc, lockedCall]
    · obtain ⟨dv, g1, g2⟩ := diskLoop_events x w tx commitTs (ord tx.deltas.elems)
        [Event.lock, Event.unlock]
      simp only [hc, if_false, g1]
      simp only [List.cons_append, List.nil_append, lockedCall]
      apply lockedCall_of_no_lock
      intro a ha hl
      have := g2 a ha
      rw [hl] at this
      exact Bool.false_ne_true this
  · intro e he
    unfold CommitToMemory at he ⊢
    simp only at he ⊢
    cases ho : (memLoop w tx commitTs fuel (ord tx.deltas.elems) [Event.lock]).1 with
    | running => rw [ho] at he; exact Outcome.noConfusion he
    | returned r =>
      simp only [h1]
      exact ⟨evs, by simp, h2⟩
  · intro he
    unfold CommitToMemory at he ⊢
    simp only at he ⊢
    cases ho : (memLoop w tx commitTs fuel (ord tx.deltas.elems) [Event.lock]).1 with
    | running =>
      simp only [h1]
      exact ⟨evs, by simp, h2⟩
    | returned r => rw [ho] at he; exact Outcome.noConfusion he

/-- C16 (amended) on a transaction that wrote one key: `CommitToDisk` fetches
and writes after the lock is released, `CommitToMemory` works under the
lock. -/
theorem lock_discipline_witness :
    (CommitToDisk sampleExt sampleWorld id sampleTxn 10).2.2
      = [Event.lock, Event.unlock, Event.get k1 (.ok 7),
          Event.getMutation 7 5 (some [1, 2, 3]), Event.setAt k1 [1, 2, 3] 4 10 none] ∧
    lockedCall false (CommitToDisk sampleExt sampleWorld id sampleTxn 10).2.2 = false ∧
    ∃ evs, (CommitToMemory sampleWorld id 1 sampleTxn 10).2.2
        = Event.lock :: evs ++ [Event.unlock] ∧
      ∀ a ∈ evs, a ≠ Event.lock ∧ a ≠ Event.unlock :=
  ⟨by decide,
    (lock_discipline sampleExt sampleWorld id sampleTxn 10 1).2.2.1,
    (lock_discipline sampleExt sampleWorld id sampleTxn 10 1).2.2.2.1 none (by decide)⟩

/-! ## C17: the fast path of `getNew` -/

theorem dropWhile_of_find (records : List Item) (key : Bytes) (item : Item)
    (h : records.find? (fun r => r.key == key) = some item) :
    item.key = key ∧
      ∃ rest, records.dropWhile (fun r => r.key != key) = item :: rest := by
  induction records with
  | nil => simp at h
  | cons a records ih =>
    by_cases ha : a.key = key
    · have hb : (a.key == key) = true := by simpa using ha
      rw [List.find?_cons, hb] at h
      simp only [Option.some.injEq] at h
      subst h
      refine ⟨ha, records, ?_⟩
      rw [List.dropWhile_cons]
      simp [ha]
    · have hb : (a.key == key) = false := by simpa using ha
      rw [List.find?_cons, hb] at h
      obtain ⟨h1, rest, h2⟩ := ih h
      refine ⟨h1, rest, ?_⟩
      rw [List.dropWhile_cons]
      simp [ha, h2]

/-- C17: let the newest record of the key be live and Complete, with a
payload `val` that is read without error and that is empty or unmarshals
without error, and let the point lookup not fail. Then `getNew` returns, with
no error, a list whose snapshot is the content of this record (the
unmarshalled payload, and the empty message for an empty payload), whose
`minTs` is its version and whose map is empty; `ReadPostingList` on the key
iterator of the same store returns a list with the same key, snapshot,
`minTs` and map, the list of `getNew` being this one with its size
computed. -/
theorem getNew_fast_path (x : Ext) (key : Bytes) (pstore : DB) (item : Item) (val : Bytes)
    (hio : pstore.getError key = none)
    (hnew : pstore.records.find? (fun r => r.key == key) = some item)
    (hlive : item.isDeletedOrExpired = false)
    (hcomp : item.isComplete x = true)
    (hval : item.value = .ok val)
    (hum : val.length ≠ 0 → (x.Unmarshal val).2 = none) :
    ∃ l lw, getNew x key pstore = .ret (some l) none ∧
      l.key = key ∧
      l.plist = (if val.length = 0 then PostingList.empty else (x.Unmarshal val).1) ∧
      (x.Unmarshal [] = (PostingList.empty, none) → l.plist = (x.Unmarshal val).1) ∧
      l.minTs = item.version ∧ l.mutationMap = [] ∧
      (ReadPostingList x key (seekKeyIterator pstore key)).1 = .ok lw ∧
      lw.key = key ∧
      lw.plist = (if val.length = 0 then PostingList.empty else (x.Unmarshal val).1) ∧
      lw.minTs = item.version ∧ lw.mutationMap = [] ∧
      l = { lw with estimatedSize := x.calculateSize lw } := by
  obtain ⟨hk, rest, hdrop⟩ := dropWhile_of_find pstore.records key item hnew
  have hget : txnGet pstore key = .ok item := by
    simp [txnGet, hio, hnew, hlive]
  have hu : unmarshalOrCopy x PostingList.empty item
      = ((if val.length = 0 then PostingList.empty else (x.Unmarshal val).1), none) := by
    unfold unmarshalOrCopy
    rw [hval]
    by_cases h0 : val.length = 0
    · simp [h0]
    · simp only [h0, if_false]
      rw [← hum h0]
  have hwalk : (ReadPostingList x key (seekKeyIterator pstore key)).1
      = .ok { PList.new key with
          plist := (if val.length = 0 then PostingList.empty else (x.Unmarshal val).1),
          minTs := item.version } := by
    simp only [ReadPostingList, seekKeyIterator, List.drop_zero, hdrop]
    rw [readLoop]
    simp only [hlive, hk, hcomp, PList.new]
    rw [hu]
    simp
  refine ⟨{ PList.new key with
        plist := (if val.length = 0 then PostingList.empty else (x.Unmarshal val).1),
        minTs := item.version,
        estimatedSize := x.calculateSize { PList.new key with
          plist := (if val.length = 0 then PostingList.empty else (x.Unmarshal val).1),
          minTs := item.version } },
    { PList.new key with
        plist := (if val.length = 0 then PostingList.empty else (x.Unmarshal val).1),
        minTs := item.version },
    ?_, rfl, rfl, ?_, rfl, rfl, hwalk, rfl, rfl, rfl, rfl, rfl⟩
  · simp only [getNew, hget, hcomp, if_true, PList.new]
    rw [hu]
    simp [finishGetNew]
  · intro hempty
    by_cases h0 : val.length = 0
    · have : val = [] := List.length_eq_zero.1 h0
      subst this
      simp [hempty]
    · simp [h0]

/-- C17 on a store whose newest record of `k1` is Complete at 100 with the
payload `[100]`, above a Delta record: `getNew` gives the list with the
unmarshalled payload as snapshot, `minTs = 100` and an empty map, and the walk
gives the same snapshot, `minTs` and map. -/
theorem getNew_fast_path_witness :
    completeStore.records.find? (fun r => r.key == k1) = some (completeAt 100) ∧
    getNew sampleExt k1 completeStore
      = .ret (some { key := k1,
                     plist := { Pack := [100], Postings := [⟨100, [], 0, 0⟩], CommitTs := 0 },
                     mutationMap := [], minTs := 100, estimatedSize := 0 }) none ∧
    (ReadPostingList sampleExt k1 (seekKeyIterator completeStore k1)).1
      = .ok { key := k1,
              plist := { Pack := [100], Postings := [⟨100, [], 0, 0⟩], CommitTs := 0 },
              mutationMap := [], minTs := 100, estimatedSize := 0 } ∧
    ∃ l lw, getNew sampleExt k1 completeStore = .ret (some l) none ∧
      l.plist = { Pack := [100], Postings := [⟨100, [], 0, 0⟩], CommitTs := 0 } ∧
      l.minTs = 100 ∧ l.mutationMap = [] ∧
      (ReadPostingList sampleExt k1 (seekKeyIterator completeStore k1)).1 = .ok lw ∧
      lw.plist = { Pack := [100], Postings := [⟨100, [], 0, 0⟩], CommitTs := 0 } ∧
      lw.minTs = 100 ∧ lw.mutationMap = [] :=
  ⟨rfl, by decide, by decide,
    (getNew_fast_path sampleExt k1 completeStore (completeAt 100) [100] rfl rfl rfl rfl rfl
      (fun _ => rfl)).imp
      (fun _ h => h.imp (fun _ g =>
        ⟨g.1, g.2.2.1, g.2.2.2.2.1, g.2.2.2.2.2.1, g.2.2.2.2.2.2.1, g.2.2.2.2.2.2.2.2.1,
          g.2.2.2.2.2.2.2.2.2.1, g.2.2.2.2.2.2.2.2.2.2.1⟩))⟩

/-! ## C18: where `ReadPostingList` leaves the iterator -/

theorem passes_eq_false_of_key (x : Ext) (key : Bytes) (c : Item) (hc : c.key ≠ key) :
    passes x key c = false := by
  cases hv : c.value <;> simp [passes, hv, hc]

theorem filter_not_discard_of_passes (x : Ext) (key : Bytes) (items : List Item)
    (h : ∀ r ∈ items, passes x key r = true) :
    items.filter (fun f => !f.discardEarlierVersions) = items := by
  rw [List.filter_eq_self]
  intro r hr
  obtain ⟨_, -, -, -, -, -, hdi, -⟩ := (passes_iff x key r).1 (h r hr)
  simp [hdi]

/-- C18: `ReadPostingList` moves the iterator by the number of records at its
position that the walk folds and moves past, and leaves it on the record
after them. When the walk, after such records, comes to a record of another
key, to a deleted or expired record, to a Complete record or to a record
marked `DiscardEarlierVersions`, the iterator is left on this record. When a
list is returned, the records folded into its map all have the key and are
live Delta records, and the iterator has moved once for each of them that is
not marked `DiscardEarlierVersions`. -/
theorem ReadPostingList_position (x : Ext) (key : Bytes) (it : Iterator) :
    (ReadPostingList x key it).2.items = it.items ∧
    (ReadPostingList x key it).2.pos
      = it.pos + ((it.items.drop it.pos).takeWhile (passes x key)).length ∧
    (∀ pre s post, it.items.drop it.pos = pre ++ s :: post →
      (∀ r ∈ pre, passes x key r = true) →
      (s.key ≠ key ∨ s.isDeletedOrExpired = true ∨ s.isComplete x = true ∨
        s.discardEarlierVersions = true) →
      (ReadPostingList x key it).2.pos = it.pos + pre.length ∧
      (ReadPostingList x key it).2.items.drop (ReadPostingList x key it).2.pos = s :: post) ∧
    (∀ l, (ReadPostingList x key it).1 = .ok l →
      ∃ folded rest, it.items.drop it.pos = folded ++ rest ∧
        l.mutationMap = foldDeltas x [] folded ∧
        (∀ f ∈ folded, f.key = key ∧ f.isDeletedOrExpired = false ∧ f.isDelta x = true ∧
          f.isComplete x = false) ∧
        (ReadPostingList x key it).2.pos
          = it.pos + (folded.filter (fun f => !f.discardEarlierVersions)).length) := by
  have hpos : (ReadPostingList x key it).2.pos
      = it.pos + ((it.items.drop it.pos).takeWhile (passes x key)).length := by
    simp only [ReadPostingList]
    exact readLoop_pos x _ it.pos (PList.new key)
  have hsplit := List.takeWhile_append_dropWhile (passes x key) (it.items.drop it.pos)
  have htw : ∀ r ∈ (it.items.drop it.pos).takeWhile (passes x key), passes x key r = true :=
    fun r hr => List.mem_takeWhile_imp hr
  have hfolded : ∀ f, passes x key f = true →
      f.key = key ∧ f.isDeletedOrExpired = false ∧ f.isDelta x = true ∧
        f.isComplete x = false := by
    intro f hf
    obtain ⟨_, -, hd, hk, hc, hdl, -, -⟩ := (passes_iff x key f).1 hf
    exact ⟨hk, hd, hdl, hc⟩
  refine ⟨rfl, hpos, ?_, ?_⟩
  · intro pre s post hdrop hpre hs
    have hsp : passes x key s = false := by
      rcases hs with h | h | h | h
      · exact passes_eq_false_of_key x key s h
      · exact passes_eq_false_of_deleted x key s h
      · exact passes_eq_false_of_isComplete x key s h
      · exact passes_eq_false_of_discard x key s h
    have h1 := (takeWhile_dropWhile_of_split (passes x key) pre s post hpre hsp).1
    have hp : (ReadPostingList x key it).2.pos = it.pos + pre.length := by
      rw [hpos, hdrop, h1]
    refine ⟨hp, ?_⟩
    rw [hp]
    show it.items.drop (it.pos + pre.length) = s :: post
    rw [← List.drop_drop, hdrop]
    simp
  · intro l hl
    have hr : readLoop x (it.items.drop it.pos) it.pos (PList.new key)
        = (.ok l, (ReadPostingList x key it).2.pos) := by
      have h1 : (readLoop x (it.items.drop it.pos) it.pos (PList.new key)).1 = .ok l := hl
      exact Prod.ext h1 rfl
    have hcases := readLoop_ok_cases x _ it.pos (PList.new key) l _ hr
    have hnk : (PList.new key).key = key := rfl
    rw [hnk] at hcases
    rcases hcases with ⟨hl1, -⟩ | ⟨s, p, he, -, -, -, -, hl1⟩ | ⟨s, p, he, hlive, hk, hc, hdl, hdi, hl1⟩
    · refine ⟨_, _, hsplit.symm, by rw [hl1]; rfl, fun f hf => hfolded f (htw f hf), ?_⟩
      rw [hpos, filter_not_discard_of_passes x key _ htw]
    · refine ⟨_, _, hsplit.symm, by rw [hl1]; rfl, fun f hf => hfolded f (htw f hf), ?_⟩
      rw [hpos, filter_not_discard_of_passes x key _ htw]
    · refine ⟨(it.items.drop it.pos).takeWhile (passes x key) ++ [s], p, ?_, by rw [hl1]; rfl,
        ?_, ?_⟩
      · rw [List.append_assoc, List.singleton_append, ← he, hsplit]
      · intro f hf
        rcases List.mem_append.1 hf with h | h
        · exact hfolded f (htw f h)
        · obtain rfl := List.mem_singleton.1 h
          exact ⟨hk, hlive, hdl, hc⟩
      · rw [hpos, List.filter_append, filter_not_discard_of_passes x key _ htw]
        simp [hdi]

/-- C18 on Delta 105, Delta 101 marked `DiscardEarlierVersions`, Delta 99:
both Delta records are folded, the iterator moves once and stays on the
marked record. -/
theorem ReadPostingList_position_witness :
    (ReadPostingList sampleExt k1 ⟨[deltaAt 105, discardAt 101, deltaAt 99], 0⟩).2.pos = 1 ∧
    (sampleRead [deltaAt 105, discardAt 101, deltaAt 99]).mutationMap.keys = [101, 105] ∧
    ((ReadPostingList sampleExt k1 ⟨[deltaAt 105, discardAt 101, deltaAt 99], 0⟩).2.pos
        = 0 + [deltaAt 105].length ∧
      (ReadPostingList sampleExt k1 ⟨[deltaAt 105, discardAt 101, deltaAt 99], 0⟩).2.items.drop
        (ReadPostingList sampleExt k1 ⟨[deltaAt 105, discardAt 101, deltaAt 99], 0⟩).2.pos
        = discardAt 101 :: [deltaAt 99]) :=
  ⟨rfl, rfl,
    (ReadPostingList_position sampleExt k1
      ⟨[deltaAt 105, discardAt 101, deltaAt 99], 0⟩).2.2.1
      [deltaAt 105] (discardAt 101) [deltaAt 99] rfl (by decide) (Or.inr (Or.inr (Or.inr rfl)))⟩

/-! ## C20: a record written by `CommitToDisk`, read by `ReadPostingList` -/

theorem two_pow_and_two_pow_of_ne (a b : Nat) (h : a ≠ b) : 2 ^ a &&& 2 ^ b = 0 := by
  apply Nat.eq_of_testBit_eq
  intro i
  simp only [Nat.testBit_and, Nat.testBit_two_pow, Nat.zero_testBit]
  by_cases h1 : a = i
  · subst h1
    simp [Ne.symm h]
  · simp [h1]

theorem diskLoop_written_mem (x : Ext) (w : World) (tx : Txn) (commitTs : Nat)
    (keys : List Bytes) (tr : List Event) (rec : Bytes × Bytes × Nat × Nat)
    (h : rec ∈ written (diskLoop x w tx commitTs keys tr).2) :
    rec ∈ written tr ∨
      (rec.1 ∈ keys ∧ rec.2.2 = (x.BitDeltaPosting, commitTs) ∧
        ∃ t plist, w.Get t rec.1 = .ok plist ∧
          w.GetMutation (t ++ [Event.get rec.1 (.ok plist)]) plist tx.StartTs
            = some rec.2.1) := by
  induction keys generalizing tr with
  | nil => exact Or.inl (by simpa [diskLoop] using h)
  | cons k keys ih =>
    rw [diskLoop] at h
    cases hg : w.Get tr k with
    | err e =>
      rw [hg] at h
      simp only [written_append] at h
      exact Or.inl (by simpa [written, recordOf] using h)
    | ok plist =>
      rw [hg] at h
      simp only at h
      cases hm : w.GetMutation (tr ++ [Event.get k (.ok plist)]) plist tx.StartTs with
      | none =>
        rw [hm] at h
        rcases ih _ h with h1 | ⟨h1, h2⟩
        · simp only [written_append] at h1
          exact Or.inl (by simpa [written, recordOf] using h1)
        · exact Or.inr ⟨List.mem_cons_of_mem _ h1, h2⟩
      | some data =>
        rw [hm] at h
        simp only at h
        cases hs : w.SetAt (tr ++ [Event.get k (.ok plist)] ++
            [Event.getMutation plist tx.StartTs (some data)]) k data x.BitDeltaPosting
            commitTs with
        | some e =>
          rw [hs] at h
          simp only [written_append] at h
          exact Or.inl (by simpa [written, recordOf] using h)
        | none =>
          rw [hs] at h
          rcases ih _ h with h1 | ⟨h1, h2⟩
          · simp only [written_append] at h1
            have h3 : rec ∈ written tr ∨ rec = (k, data, x.BitDeltaPosting, commitTs) := by
              simpa [written, recordOf] using h1
            rcases h3 with h3 | h3
            · exact Or.inl h3
            · subst h3
              exact Or.inr ⟨List.mem_cons_self _ _, rfl, tr, plist, hg, hm⟩
          · exact Or.inr ⟨List.mem_cons_of_mem _ h1, h2⟩

/-- Every record `CommitToDisk` writes has a written key, as payload what
`GetMutation` gave for `StartTs` on the list fetched for this key, the Delta
bit as metadata and the version `commitTs`, which is not 0. -/
theorem CommitToDisk_written_mem (x : Ext) (w : World) (ord : List Bytes → List Bytes)
    (tx : Txn) (commitTs : Nat) (rec : Bytes × Bytes × Nat × Nat)
    (h : rec ∈ written (CommitToDisk x w ord tx commitTs).2.2) :
    commitTs ≠ 0 ∧ rec.1 ∈ ord tx.deltas.elems ∧ rec.2.2 = (x.BitDeltaPosting, commitTs) ∧
      ∃ t plist, w.Get t rec.1 = .ok plist ∧
        w.GetMutation (t ++ [Event.get rec.1 (.ok plist)]) plist tx.StartTs
          = some rec.2.1 := by
  unfold CommitToDisk at h
  by_cases hc : commitTs = 0
  · simp [hc, written] at h
  · simp only [hc, if_false] at h
    rcases diskLoop_written_mem x w tx commitTs _ _ rec h with h1 | h1
    · simp [written, recordOf] at h1
    · exact ⟨hc, h1⟩

/-- C20: let the Delta and Complete bits be two different single bits, and
let a record written by `CommitToDisk` have as payload the marshalled form of
the buffered mutation `mutation`, which unmarshalling gives back. The payload
is what `GetMutation` answered at `StartTs` on the list fetched for the key of
the record; the record has the Delta bit and the version `commitTs`, not 0.
As a live record of its key it is read as a Delta record and not as a
Complete one. Alone under the iterator it gives the list whose map has the
one key `commitTs`, and as the newest record above older versions, every list
returned has at `commitTs` the mutation `mutation`, with all its fields and
postings, where only `CommitTs` is set to `commitTs` in the message and in
each of its postings. -/
theorem write_then_read (x : Ext) (w : World) (ord : List Bytes → List Bytes) (tx : Txn)
    (commitTs : Nat) (rec : Bytes × Bytes × Nat × Nat) (marshal : PostingList → Bytes)
    (mutation : PostingList) (a b : Nat) (discard : Bool) (rest : List Item)
    (hab : a ≠ b) (hdelta : x.BitDeltaPosting = 2 ^ a) (hcomp : x.BitCompletePosting = 2 ^ b)
    (hround : x.Unmarshal (marshal mutation) = (mutation, none))
    (hrec : rec ∈ written (CommitToDisk x w ord tx commitTs).2.2)
    (hmut : rec.2.1 = marshal mutation)
    (hrest : ∀ r ∈ rest, r.version < commitTs) :
    commitTs ≠ 0 ∧ rec.2.2 = (x.BitDeltaPosting, commitTs) ∧
    rec.1 ∈ ord tx.deltas.elems ∧
    (∃ t plist, w.Get t rec.1 = .ok plist ∧
      w.GetMutation (t ++ [Event.get rec.1 (.ok plist)]) plist tx.StartTs
        = some (marshal mutation)) ∧
    (writtenItem rec discard).isDelta x = true ∧
    (writtenItem rec discard).isComplete x = false ∧
    (ReadPostingList x rec.1 ⟨[writtenItem rec discard], 0⟩).1
      = .ok { key := rec.1, plist := PostingList.empty,
              mutationMap :=
                [(commitTs, { Pack := mutation.Pack,
                                Postings := mutation.Postings.map (fun q =>
                                  { Uid := q.Uid, Value := q.Value, StartTs := q.StartTs,
                                    CommitTs := commitTs }),
                                CommitTs := commitTs })],
              minTs := 0, estimatedSize := 0 } ∧
    (∀ l, (ReadPostingList x rec.1 ⟨writtenItem rec discard :: rest, 0⟩).1 = .ok l →
      l.mutationMap.get commitTs
        = some { Pack := mutation.Pack,
                                Postings := mutation.Postings.map (fun q =>
                                  { Uid := q.Uid, Value := q.Value, StartTs := q.StartTs,
                                    CommitTs := commitTs }),
                                CommitTs := commitTs }) := by
  have hst : ({ Pack := mutation.Pack,
                                Postings := mutation.Postings.map (fun q =>
                                  { Uid := q.Uid, Value := q.Value, StartTs := q.StartTs,
                                    CommitTs := commitTs }),
                                CommitTs := commitTs } : PostingList) = stampCommitTs mutation commitTs := by
    simp [stampCommitTs]
  have hnew : ({ key := rec.1, plist := PostingList.empty,
                 mutationMap := [(commitTs, stampCommitTs mutation commitTs)],
                 minTs := 0, estimatedSize := 0 } : PList)
      = { PList.new rec.1 with
          mutationMap := [(commitTs, stampCommitTs mutation commitTs)] } := rfl
  rw [hst, hnew]
  have hsrc := (CommitToDisk_written_mem x w ord tx commitTs rec hrec).2.2.2
  have hkeys := (CommitToDisk_written_mem x w ord tx commitTs rec hrec).2.1
  rw [hmut] at hsrc
  obtain ⟨hc, -, hmeta, -⟩ := CommitToDisk_written_mem x w ord tx commitTs rec hrec
  have hm1 : rec.2.2.1 = x.BitDeltaPosting := (Prod.mk.inj hmeta).1
  have hv1 : rec.2.2.2 = commitTs := (Prod.mk.inj hmeta).2
  have hisd : (writtenItem rec discard).isDelta x = true := by
    simp only [Item.isDelta, writtenItem, hm1, hdelta, Nat.and_self, decide_eq_true_eq]
    exact Nat.two_pow_pos a
  have hisc : (writtenItem rec discard).isComplete x = false := by
    simp only [Item.isComplete, writtenItem, hm1, hdelta, hcomp,
      two_pow_and_two_pow_of_ne a b hab]
    decide
  have hcontent : deltaContent x (writtenItem rec discard) = stampCommitTs mutation commitTs := by
    simp only [deltaContent, writtenItem, hmut, hround, hv1]
  have hpass : passes x rec.1 (writtenItem rec false) = true := by
    rw [passes_iff]
    exact ⟨marshal mutation, by simp [writtenItem, hmut], rfl, rfl, hisc, hisd, rfl, by rw [hround]⟩
  have hver : (writtenItem rec discard).version = commitTs := hv1
  have hstep : ∀ tail : List Item,
      readLoop x (writtenItem rec discard :: tail) 0 (PList.new rec.1)
        = if discard then
            (.ok { PList.new rec.1 with
              mutationMap := [(commitTs, stampCommitTs mutation commitTs)] }, 0)
          else readLoop x tail 1 { PList.new rec.1 with
              mutationMap := [(commitTs, stampCommitTs mutation commitTs)] } := by
    intro tail
    cases discard with
    | false =>
      rw [readLoop_cons_passes x (writtenItem rec false) tail 0 (PList.new rec.1) hpass,
        hcontent, hver]
      simp [PList.new, MutationMap.set]
    | true =>
      have hc1 : (writtenItem rec true).isComplete x = false := hisc
      have hd1 : (writtenItem rec true).isDelta x = true := hisd
      rw [readLoop]
      simp only [hc1, hd1]
      simp only [writtenItem, hmut, hround, hv1, PList.new]
      simp [MutationMap.set, stampCommitTs]
  refine ⟨hc, hmeta, hkeys, hsrc, hisd, hisc, ?_, ?_⟩
  · simp only [ReadPostingList, List.drop_zero]
    rw [hstep []]
    cases discard <;> simp [readLoop]
  · intro l hl
    simp only [ReadPostingList, List.drop_zero] at hl
    rw [hstep rest] at hl
    cases discard with
    | true =>
      simp only [if_true, ReadResult.ok.injEq] at hl
      rw [← hl]
      simp [MutationMap.get]
    | false =>
      simp only [Bool.false_eq_true, if_false] at hl
      have hr : readLoop x rest 1 { PList.new rec.1 with
          mutationMap := [(commitTs, stampCommitTs mutation commitTs)] }
          = (.ok l, (readLoop x rest 1 { PList.new rec.1 with
              mutationMap := [(commitTs, stampCommitTs mutation commitTs)] }).2) :=
        Prod.ext hl rfl
      have hsplit := List.takeWhile_append_dropWhile (passes x rec.1) rest
      have htw : ∀ r ∈ rest.takeWhile (passes x rec.1), r.version ≠ commitTs := fun r hr1 =>
        Nat.ne_of_lt (hrest r ((List.takeWhile_sublist _).subset hr1))
      have hbase : MutationMap.get [(commitTs, stampCommitTs mutation commitTs)] commitTs
          = some (stampCommitTs mutation commitTs) := by
        simp [MutationMap.get]
      rcases readLoop_ok_cases x rest 1 _ l _ hr with
        ⟨hl1, -⟩ | ⟨s, p, he, -, -, -, -, hl1⟩ | ⟨s, p, he, -, -, -, -, -, hl1⟩
      · rw [hl1]
        simp only [PList.new]
        rw [get_foldDeltas_of_not_mem x _ _ commitTs htw, hbase]
      · rw [hl1]
        simp only [PList.new]
        rw [get_foldDeltas_of_not_mem x _ _ commitTs htw, hbase]
      · rw [hl1]
        simp only [PList.new]
        rw [get_foldDeltas_of_not_mem x _ _ commitTs ?_, hbase]
        intro r hr1
        rcases List.mem_append.1 hr1 with h1 | h1
        · exact htw r h1
        · obtain rfl := List.mem_singleton.1 h1
          have hs : r ∈ rest := by
            rw [← hsplit]
            simp only [PList.new] at he
            rw [he]
            simp
          exact Nat.ne_of_lt (hrest r hs)

/-- C20 at the scenario of the specification: the record written for `"k1"`
at `commitTs = 10` with the payload `[1, 2, 3]` is read back, above an older
Complete record, into the map at key 10, with its three postings and with
`CommitTs = 10`. -/
theorem write_then_read_witness :
    written (CommitToDisk sampleExt sampleWorld id sampleTxn 10).2.2 = [(k1, [1, 2, 3], 4, 10)] ∧
    (sampleRead [writtenItem (k1, [1, 2, 3], 4, 10) false, completeAt 8]).mutationMap
      = [(10, { Pack := [1, 2, 3],
                Postings := [⟨1, [], 0, 10⟩, ⟨2, [], 0, 10⟩, ⟨3, [], 0, 10⟩],
                CommitTs := 10 })] ∧
    ∀ l, (ReadPostingList sampleExt k1
        ⟨writtenItem (k1, [1, 2, 3], 4, 10) false :: [completeAt 8], 0⟩).1 = .ok l →
      l.mutationMap.get 10
        = some { Pack := [1, 2, 3],
                 Postings := [⟨1, [], 0, 10⟩, ⟨2, [], 0, 10⟩, ⟨3, [], 0, 10⟩],
                 CommitTs := 10 } :=
  ⟨by decide, by decide,
    (write_then_read sampleExt sampleWorld id sampleTxn 10 (k1, [1, 2, 3], 4, 10)
      sampleMarshal
      { Pack := [1, 2, 3], Postings := [⟨1, [], 0, 0⟩, ⟨2, [], 0, 0⟩, ⟨3, [], 0, 0⟩],
        CommitTs := 0 }
      2 3 false [completeAt 8]
      (by decide) rfl rfl rfl (by decide) rfl (by decide)).2.2.2.2.2.2.2⟩

end Mvcc
